import Mathlib

/-!
Verification of the masking / unmasking engine (`src/components/PrivacyGuard.tsx`)
and the risk-reconciliation engine (`src/components/ReviewInterface.tsx`) of the
contract-review application.

JavaScript strings are modelled as `List Char`.  The JavaScript string
operations the two components use are modelled executably:

* `String.prototype.replace(regex-with-g, str)` — global leftmost
  non-overlapping replacement, including the `$$`/`$&`/backtick/quote
  substitution patterns JavaScript interprets inside a string replacement;
* `String.prototype.replace(searchString, str)` — first-occurrence replacement;
* `String.prototype.split` / `Array.prototype.join`;
* `String.prototype.indexOf` / `includes`;
* `Array.prototype.sort` with a comparator — a stable sort; the unique stable
  sort is modelled by `List.insertionSort` with the comparator's `≤`.

The only regular expressions the manual masking rules ever build consist of
escaped literal characters plus the two bracket alternation classes, so a
compiled rule pattern is modelled as a list of single-character classes
(`PatElem`).
-/

abbrev Str := List Char

/-- JavaScript truthiness of a `string | null | undefined` value:
`null`/`undefined` and the empty string are falsy. -/
def jsTruthy : Option Str → Bool
  | none => false
  | some s => s ≠ []

/-- Does the replacement string contain one of the substitution patterns that
`String.prototype.replace` interprets: `$$`, `$&`, `$` + backtick, `$` + quote?
(The regexes built by the app contain no capture groups and no named groups, so
`$n` and `$<...>` stay literal.) -/
def hasDollarPat : Str → Bool
  | [] => false
  | [_] => false
  | c :: d :: r =>
    (decide (c = '$') &&
      (decide (d = '$') || decide (d = '&') ||
       decide (d = Char.ofNat 96) || decide (d = Char.ofNat 39)))
    || hasDollarPat (d :: r)

/-- JavaScript's interpretation of a string used as the replacement argument of
`String.prototype.replace`: `$$` → `$`, `$&` → the matched text, `$` + backtick
→ the portion of the whole input before the match, `$` + quote → the portion
after the match; any other `$`-sequence is literal. -/
def dollarSubst (matched before after : Str) : Str → Str
  | [] => []
  | [c] => [c]
  | c :: d :: r =>
    if c = '$' then
      if d = '$' then '$' :: dollarSubst matched before after r
      else if d = '&' then matched ++ dollarSubst matched before after r
      else if d = Char.ofNat 96 then before ++ dollarSubst matched before after r
      else if d = Char.ofNat 39 then after ++ dollarSubst matched before after r
      else c :: dollarSubst matched before after (d :: r)
    else c :: dollarSubst matched before after (d :: r)

/-- `String.prototype.indexOf`, as a scan: index of the first occurrence of
`s` starting at accumulated index `i`, `none` when absent. -/
def jsIndexOfAux (s : Str) : Str → Nat → Option Nat
  | [], i => if s = [] then some i else none
  | c :: t, i => if s.isPrefixOf (c :: t) then some i else jsIndexOfAux s t (i + 1)

/-- `haystack.indexOf(needle)` — `-1` when absent. -/
def jsIndexOf (t s : Str) : Int :=
  match jsIndexOfAux s t 0 with
  | some n => (n : Int)
  | none => -1

/-- `haystack.includes(needle)`. -/
def jsIncludes (t s : Str) : Bool :=
  (jsIndexOfAux s t 0).isSome

/-- `String.prototype.replace(searchString, replacement)`: replaces only the
first occurrence, applying dollar substitution to the replacement; the string
is returned unchanged when the search string does not occur. -/
def replaceFirstJS (t s r : Str) : Str :=
  match jsIndexOfAux s t 0 with
  | none => t
  | some i =>
    t.take i ++ dollarSubst s (t.take i) (t.drop (i + s.length)) r ++ t.drop (i + s.length)

/-- `Array.prototype.join(sep)`. -/
def joinWith (sep : Str) : List Str → Str
  | [] => []
  | [s] => s
  | s :: rest => s ++ sep ++ joinWith sep rest

/-- One single-character class of a compiled manual-rule pattern.  After the
escaping pass of `computedData` (PrivacyGuard.tsx line 81) every character of
the target matches literally, except that the normalisation passes (lines
82-83) collapse each half-width or full-width parenthesis into an alternation
class accepting both variants. -/
inductive PatElem where
  | lit (c : Char)
  | anyOpen
  | anyClose
deriving DecidableEq

/-- Which characters a pattern element accepts. -/
def PatElem.accepts : PatElem → Char → Bool
  | .lit c, d => c == d
  | .anyOpen, d => d == '(' || d == '（'
  | .anyClose, d => d == ')' || d == '）'

/-- The pattern `computedData` builds from a rule target: escape all
regex-special characters (so every character is matched literally), then
collapse both parenthesis styles into alternation classes. -/
def buildPattern (target : Str) : List PatElem :=
  target.map fun c =>
    if c = '(' ∨ c = '（' then .anyOpen
    else if c = ')' ∨ c = '）' then .anyClose
    else .lit c

/-- A pattern all of whose elements are literal characters (used to model
`String.prototype.split` with a string separator). -/
def litPat (s : Str) : List PatElem := s.map .lit

/-- Does some element of the pattern accept the character? -/
def patAccepts (pat : List PatElem) (c : Char) : Bool :=
  pat.any (·.accepts c)

/-- Try to match the pattern against a prefix of the text; returns the matched
prefix (whose length always equals the pattern length) on success. -/
def patMatchAt : List PatElem → Str → Option Str
  | [], _ => some []
  | _ :: _, [] => none
  | e :: p, c :: t => if e.accepts c then (patMatchAt p t).map (c :: ·) else none

/-- `String.prototype.replace(regex-with-g-flag, replacement-string)`, as the
leftmost non-overlapping scan JavaScript performs: at each position try the
pattern; on a (necessarily nonempty, since rule patterns come from nonempty
targets) match, emit the dollar-substituted replacement and continue right
after the match; otherwise copy one character.  `before` accumulates the
consumed prefix of the whole input (needed by dollar substitution).
Replacements are never rescanned. -/
def replAllGo (pat : List PatElem) (repl : Str) : Str → Str → Str
  | _, [] => []
  | before, c :: t =>
    match patMatchAt pat (c :: t) with
    | some (a :: m) =>
      dollarSubst (a :: m) before (t.drop m.length) repl
        ++ replAllGo pat repl (before ++ (a :: m)) (t.drop m.length)
    | _ => c :: replAllGo pat repl (before ++ [c]) t
termination_by _ t => t.length
decreasing_by
  · simp only [List.length_cons]
    have := List.length_drop m.length t
    omega
  · simp [Nat.lt_succ_self]

/-- Global regex replacement over a whole string. -/
def replaceAllJS (t : Str) (pat : List PatElem) (repl : Str) : Str :=
  replAllGo pat repl [] t

/-- Number of matches found by the same scan (`text.match(regex).length`,
`0` when `match` returns `null`). -/
def countGo (pat : List PatElem) : Str → Nat
  | [] => 0
  | c :: t =>
    match patMatchAt pat (c :: t) with
    | some (_ :: m) => countGo pat (t.drop m.length) + 1
    | _ => countGo pat t
termination_by t => t.length
decreasing_by
  · simp only [List.length_cons]
    have := List.length_drop m.length t
    omega
  · simp [Nat.lt_succ_self]

/-- Prepend a character to the first piece of a split result. -/
def consHead (c : Char) : List Str → List Str
  | [] => [[c]]
  | p :: ps => (c :: p) :: ps

/-- The pieces of the text between the leftmost non-overlapping matches of the
pattern (the same scan as `replAllGo`). -/
def splitPat (pat : List PatElem) : Str → List Str
  | [] => [[]]
  | c :: t =>
    match patMatchAt pat (c :: t) with
    | some (_ :: m) => [] :: splitPat pat (t.drop m.length)
    | _ => consHead c (splitPat pat t)
termination_by t => t.length
decreasing_by
  · simp only [List.length_cons]
    have := List.length_drop m.length t
    omega
  · simp [Nat.lt_succ_self]

/-- `String.prototype.split(sep)` for a string separator: with an empty
separator JavaScript splits into single characters; otherwise it splits on the
leftmost non-overlapping occurrences. -/
def splitOnJS (t sep : Str) : List Str :=
  if sep = [] then t.map ([·]) else splitPat (litPat sep) t

/-- A manual masking rule (`SensitiveWord` in `src/types.ts`). -/
structure SensitiveWord where
  id : Str
  target : Str
  placeholder : Str
deriving DecidableEq

/-- The `MaskingMap` (`Record<string, string>`): a string-keyed JavaScript
object, modelled as an association list in key-insertion order.  (JavaScript
additionally fronts integer-like keys; none of the placeholders used in the
claims is integer-like.) -/
abbrev MaskingMap := List (Str × Str)

/-- `map[k] = v`: overwrites in place when the key exists, appends otherwise. -/
def mapInsert (m : MaskingMap) (k v : Str) : MaskingMap :=
  if m.any (fun p => p.1 == k) then m.map (fun p => if p.1 == k then (k, v) else p)
  else m ++ [(k, v)]

/-- `Object.keys(map)`, in insertion order. -/
def mapKeys (m : MaskingMap) : List Str := m.map Prod.fst

/-- `map[k]` for a key known to be present (`[]` for a missing key). -/
def mapGet (m : MaskingMap) (k : Str) : Str :=
  (((m.find? (fun p => p.1 == k)).map Prod.snd).getD [])

/-- The accumulating state of `computedData`: the partially masked text, the
placeholder map and the running replacement count. -/
structure MaskState where
  text : Str
  map : MaskingMap
  totalCount : Nat
deriving DecidableEq

/-- One iteration of the manual-rule loop of `computedData`
(PrivacyGuard.tsx lines 79-92): skip an empty target (`if (!rule.target)`),
build the pattern, and when `text.match(regex)` finds at least one match,
add the match count, record `placeholder -> target` and replace globally. -/
def applyRule (st : MaskState) (rule : SensitiveWord) : MaskState :=
  if rule.target = [] then st
  else
    let pat := buildPattern rule.target
    let n := countGo pat st.text
    if n = 0 then st
    else
      { text := replaceAllJS st.text pat rule.placeholder
        map := mapInsert st.map rule.placeholder rule.target
        totalCount := st.totalCount + n }

/-- An enabled pattern detector of the `REGEX_PATTERNS` catalog, kept
abstract: `findM` returns the leftmost match of its regex as
`(before, matched, after)`, and `tagStart` is its placeholder prefix (e.g.
`[AMOUNT_`).  Every claim under verification runs `computedData` with no
enabled detectors, so the five concrete regexes are not formalised. -/
structure Detector where
  findM : Str → Option (Str × Str × Str)
  tagStart : Str

/-- The replacement loop of one detector (PrivacyGuard.tsx lines 95-106):
replace every match with `prefix + counter + "]"`, recording
`placeholder -> matchedText` and counting.  The recursion is bounded by fuel
(one unit per match; the concrete detector regexes never match the empty
string, so the fuel `text.length + 1` is never exhausted). -/
def detLoop (d : Detector) : Nat → Nat → MaskState → MaskState
  | 0, _, st => st
  | fuel + 1, counter, st =>
    match d.findM st.text with
    | none => st
    | some (b, mt, a) =>
      let ph := d.tagStart ++ (toString counter).data ++ [']']
      detLoop d fuel (counter + 1)
        { text := b ++ ph ++ a
          map := mapInsert st.map ph mt
          totalCount := st.totalCount + 1 }

/-- Apply one enabled detector to the already partially masked text. -/
def applyDetector (st : MaskState) (d : Detector) : MaskState :=
  detLoop d (st.text.length + 1) 1 st

/-- `computedData` (PrivacyGuard.tsx lines 71-109): sort the manual rules by
target length descending (`Array.prototype.sort` is stable, so ties keep
insertion order; the unique stable sort is `insertionSort` with the
comparator's `≤`), fold them over the original text, then apply the enabled
detectors in catalog order (`activeRegexes` is the catalog-ordered list of
enabled detectors). -/
def computedData (originalContent : Str) (sensitiveWords : List SensitiveWord)
    (activeRegexes : List Detector) : MaskState :=
  let sortedRules :=
    List.insertionSort (fun a b => b.target.length ≤ a.target.length) sensitiveWords
  let st := sortedRules.foldl applyRule { text := originalContent, map := [], totalCount := 0 }
  activeRegexes.foldl applyDetector st

/-- `unmaskText` (ReviewInterface.tsx lines 104-112): empty text maps to the
empty string; otherwise sort the map keys by length descending (stable) and
perform `result.split(placeholder).join(map[placeholder])` for each key. -/
def unmaskText (maskMap : MaskingMap) (text : Str) : Str :=
  if text = [] then []
  else
    (List.insertionSort (fun a b => b.length ≤ a.length) (mapKeys maskMap)).foldl
      (fun result ph => joinWith (mapGet maskMap ph) (splitOnJS result ph)) text

/-- `RiskLevel` (`src/types.ts`). -/
inductive RiskLevel where
  | HIGH
  | MEDIUM
  | LOW
deriving DecidableEq

/-- `RiskPoint` (`src/types.ts`). -/
structure RiskPoint where
  id : Str
  originalText : Str
  riskDescription : Str
  reason : Str
  level : RiskLevel
  suggestedText : Str
  isAddressed : Bool
deriving DecidableEq

/-- One entry of the undo history stack (ReviewInterface.tsx line 41). -/
structure HistoryEntry where
  text : Str
  risks : List RiskPoint
  selectedId : Option Str
deriving DecidableEq

/-- The reconciliation state of `ReviewInterface`: the working text, the risk
list, the selection, the history stack and the accept-animation flags. -/
structure ReviewState where
  currentText : Str
  risks : List RiskPoint
  selectedRiskId : Option Str
  history : List HistoryEntry
  isAnimatingSuccess : Bool
  animatingRiskId : Option Str
deriving DecidableEq

/-- `visibleRisks` (lines 78-83): addressed risks, plus unaddressed risks whose
`originalText` still occurs in the working text. -/
def visibleRisks (currentText : Str) (risks : List RiskPoint) : List RiskPoint :=
  risks.filter (fun r => r.isAddressed || jsIncludes currentText r.originalText)

/-- `sortedActiveRisks` (lines 85-93): the unaddressed visible risks, stably
sorted by `currentText.indexOf(originalText)` ascending. -/
def sortedActiveRisks (currentText : Str) (risks : List RiskPoint) : List RiskPoint :=
  List.insertionSort
    (fun a b => jsIndexOf currentText a.originalText ≤ jsIndexOf currentText b.originalText)
    ((visibleRisks currentText risks).filter (fun r => !r.isAddressed))

/-- `r.id === selectedRiskId` where `selectedRiskId : string | null`:
strict equality with `null` is false. -/
def idMatches (r : RiskPoint) : Option Str → Bool
  | some sid => r.id == sid
  | none => false

/-- `handleUndo` (lines 182-206): no-op on an empty history; otherwise cancel
any in-flight animation, restore text and risks from the most recent entry,
restore the selection only when the saved selection is truthy
(`if (prev.selectedId)` skips both `null` and the empty string), and pop the
entry. -/
def handleUndo (s : ReviewState) : ReviewState :=
  if s.history = [] then s
  else
    match s.history.getLast? with
    | none => s
    | some prev =>
      { currentText := prev.text
        risks := prev.risks
        selectedRiskId := if jsTruthy prev.selectedId then prev.selectedId else s.selectedRiskId
        history := s.history.dropLast
        isAnimatingSuccess := false
        animatingRiskId := none }

/-- The `nextRiskId` computation shared by `handleAcceptRisk` and
`handleIgnoreRisk` (lines 210-221): among the currently active risks, the one
after the given risk in active order, wrapping to the first; `null` when the
risk is not found among the active risks or is the only one. -/
def nextFocusAfter (active : List RiskPoint) (rid : Str) : Option Str :=
  match active.findIdx? (fun r => r.id == rid) with
  | some i =>
    if active.length > 1 then
      if i < active.length - 1 then (active.get? (i + 1)).map (fun r => r.id)
      else (active.get? 0).map (fun r => r.id)
    else none
  | none => none

/-- `handleAcceptRisk` (lines 208-243), up to the point where all `setState`
calls have landed: push the current snapshot, replace the first occurrence of
`originalText` by `suggestedText` (a string-pattern `String.prototype.replace`,
so not global), mark the risk addressed, and enter the animating state.  (The
1500 ms timeout that later clears the animation and moves the selection to
`nextFocusAfter` is a separate, purely selection/animation step and is not
needed by the claims under verification.) -/
def handleAcceptRisk (s : ReviewState) (risk : RiskPoint) : ReviewState :=
  { currentText := replaceFirstJS s.currentText risk.originalText risk.suggestedText
    risks := s.risks.map (fun r => if r.id == risk.id then { r with isAddressed := true } else r)
    selectedRiskId := s.selectedRiskId
    history := s.history ++ [{ text := s.currentText, risks := s.risks,
                               selectedId := s.selectedRiskId }]
    isAnimatingSuccess := true
    animatingRiskId := some risk.id }

/-- The two directions of `navigateRisk`. -/
inductive NavDirection where
  | next
  | prev
deriving DecidableEq

/-- `navigateRisk` (lines 267-282): no-op when there is no active risk;
otherwise move one step from the index of the selected risk in the active
ordering (`findIndex` gives `-1` for a stale or null selection), clamping with
wraparound exactly as the code does, and select the resulting risk. -/
def navigateRisk (s : ReviewState) (direction : NavDirection) : ReviewState :=
  let active := sortedActiveRisks s.currentText s.risks
  if active.length = 0 then s
  else
    let currentIndex : Int :=
      match active.findIdx? (fun r => idMatches r s.selectedRiskId) with
      | some i => (i : Int)
      | none => -1
    let nextIndex0 : Int :=
      match direction with
      | .next => currentIndex + 1
      | .prev => currentIndex - 1
    let nextIndex1 : Int := if nextIndex0 ≥ (active.length : Int) then 0 else nextIndex0
    let nextIndex2 : Int := if nextIndex1 < 0 then (active.length : Int) - 1 else nextIndex1
    match active.get? nextIndex2.toNat with
    | some r => { s with selectedRiskId := some r.id }
    | none => s

/-- A displayable run of the working document
(`{ text, riskId?, level?, isAnimating? }` in `renderDocumentContent`).
A plain run has `riskId = none`. -/
structure Segment where
  text : Str
  riskId : Option Str := none
  level : Option RiskLevel := none
  isAnimating : Bool := false
deriving DecidableEq

/-- A highlight candidate of `renderDocumentContent` (lines 302-315): an
active risk contributes its `originalText`; the animating risk, when present,
additionally contributes its `suggestedText`. -/
structure Candidate where
  risk : RiskPoint
  matchText : Str
  isAnimating : Bool
deriving DecidableEq

/-- The candidate list (lines 302-315). -/
def segmentsToHighlight (currentText : Str) (risks : List RiskPoint)
    (animatingRiskId : Option Str) : List Candidate :=
  (sortedActiveRisks currentText risks).map (fun r => ⟨r, r.originalText, false⟩)
    ++ match animatingRiskId with
       | none => []
       | some aid =>
         match risks.find? (fun r => r.id == aid) with
         | some r => [⟨r, r.suggestedText, true⟩]
         | none => []

/-- The filtered, offset-sorted candidates (lines 317-319). -/
def sortedSegments (currentText : Str) (risks : List RiskPoint)
    (animatingRiskId : Option Str) : List Candidate :=
  List.insertionSort
    (fun a b => jsIndexOf currentText a.matchText ≤ jsIndexOf currentText b.matchText)
    ((segmentsToHighlight currentText risks animatingRiskId).filter
      (fun sg => jsIndexOf currentText sg.matchText ≠ -1))

/-- The highlighted segment a candidate contributes. -/
def highlightOf (c : Candidate) : Segment :=
  { text := c.matchText, riskId := some c.risk.id, level := some c.risk.level,
    isAnimating := c.isAnimating }

/-- The inner loop of lines 333-343: push the split pieces as plain segments
with the candidate's highlighted segment between each adjacent pair. -/
def interleaveSegs (c : Candidate) : List Str → List Segment
  | [] => []
  | [p] => [{ text := p }]
  | p :: rest => { text := p } :: highlightOf c :: interleaveSegs c rest

/-- Lines 325-347 for one part: an already highlighted part (`if (part.riskId)`
— JavaScript truthiness, so an empty-string risk id counts as plain) is kept;
a plain part is split on the candidate's `matchText` and, when the split found
an occurrence (`split.length > 1`), interleaved with highlighted segments. -/
def splitPart (c : Candidate) (part : Segment) : List Segment :=
  if jsTruthy part.riskId then [part]
  else
    let pieces := splitOnJS part.text c.matchText
    if pieces.length > 1 then interleaveSegs c pieces else [part]

/-- One pass of the candidate fold (lines 323-349). -/
def applyCandidate (parts : List Segment) (c : Candidate) : List Segment :=
  (parts.map (splitPart c)).flatten

/-- The segmentation of `renderDocumentContent` (lines 301-349): start with a
single plain segment holding the whole working text and fold the sorted
candidates over it. -/
def segmentDocument (currentText : Str) (risks : List RiskPoint)
    (animatingRiskId : Option Str) : List Segment :=
  (sortedSegments currentText risks animatingRiskId).foldl applyCandidate
    [{ text := currentText }]

/-!
Auxiliary structures for the correctness proofs.

A partially masked text is viewed as a list of tokens: fragments of
as-yet-unreplaced text interleaved with inserted placeholder blocks (each block
remembering the placeholder and the rule target it replaced).  `render`
flattens the tokens to the visible text; `restore` flattens them with every
placeholder block replaced by its original target.
-/

/-- A token of a partially masked text. -/
inductive Tok where
  | frag (s : Str)
  | ph (p w : Str)
deriving DecidableEq

/-- The visible text of a token list. -/
def render : List Tok → Str
  | [] => []
  | .frag s :: ts => s ++ render ts
  | .ph p _ :: ts => p ++ render ts

/-- The token list with every placeholder block replaced by its original. -/
def restore : List Tok → Str
  | [] => []
  | .frag s :: ts => s ++ restore ts
  | .ph _ w :: ts => w ++ restore ts

/-- Is the token a fragment? -/
def Tok.isFrag : Tok → Bool
  | .frag _ => true
  | .ph _ _ => false

/-- Does the token list avoid starting with a fragment? -/
def headNotFrag : List Tok → Prop
  | .frag _ :: _ => False
  | _ => True

/-- No two adjacent fragments (fragments are separated by placeholder
blocks). -/
def SepOK : List Tok → Prop
  | [] => True
  | .frag _ :: ts => headNotFrag ts ∧ SepOK ts
  | .ph _ _ :: ts => SepOK ts

/-- Turn the split pieces of a fragment into tokens, inserting a placeholder
block between each adjacent pair of pieces. -/
def tokSplitFrag (p w : Str) : List Str → List Tok
  | [] => []
  | [s] => [.frag s]
  | s :: rest => .frag s :: .ph p w :: tokSplitFrag p w rest

/-- Apply one masking rule at the token level: split every fragment on the
rule's pattern, leaving existing placeholder blocks untouched. -/
def maskToks (pat : List PatElem) (p w : Str) : List Tok → List Tok
  | [] => []
  | .frag f :: ts => tokSplitFrag p w (splitPat pat f) ++ maskToks pat p w ts
  | .ph q u :: ts => .ph q u :: maskToks pat p w ts

/-- Apply one unmasking step at the token level: every block whose placeholder
is the processed key becomes a restored fragment. -/
def unmaskToks (k : Str) : List Tok → List Tok
  | [] => []
  | .frag s :: ts => .frag s :: unmaskToks k ts
  | .ph p w :: ts => (if p = k then .frag w else .ph p w) :: unmaskToks k ts

/-- Prepend a string to the first piece of a split result. -/
def consPiece (s : Str) : List Str → List Str
  | [] => [s]
  | p :: ps => (s ++ p) :: ps

/-- Concatenate two split results, merging the last piece of the first with
the first piece of the second (the shape `splitPat` takes on an append when no
match crosses the boundary). -/
def glueSplits : List Str → List Str → List Str
  | [], B => B
  | [a], B => consPiece a B
  | a :: a' :: A, B => a :: glueSplits (a' :: A) B

/-- The concatenation of the texts of a segment list. -/
def concatTexts (segs : List Segment) : Str :=
  (segs.map (fun sg => sg.text)).flatten

/-- A target is literal when it contains no parenthesis character of either
width, so that bracket normalisation leaves its pattern a plain literal. -/
def parenFree (w : Str) : Prop :=
  ∀ c ∈ w, c ≠ '(' ∧ c ≠ ')' ∧ c ≠ '（' ∧ c ≠ '）'

/-- The invariant tying a mask state to a token decomposition of its text
during the manual-rule fold of `computedData`: the state's text renders the
tokens, restoring all blocks gives back the original document, fragments are
separated by blocks, fragment characters come from the document, every block
is recorded in the map, every map entry records a rule, and map keys are
unique. -/
def MaskInv (doc : Str) (rules : List SensitiveWord) (st : MaskState)
    (toks : List Tok) : Prop :=
  st.text = render toks
  ∧ restore toks = doc
  ∧ SepOK toks
  ∧ (∀ s, Tok.frag s ∈ toks → ∀ c ∈ s, c ∈ doc)
  ∧ (∀ q u, Tok.ph q u ∈ toks → (q, u) ∈ st.map)
  ∧ (∀ kv ∈ st.map, ∃ r ∈ rules, kv.1 = r.placeholder ∧ kv.2 = r.target)
  ∧ (mapKeys st.map).Nodup

/-! ### Basic properties of pattern matching -/

theorem patAccepts_nil {c : Char} : patAccepts [] c = false := rfl

theorem patAccepts_cons {e : PatElem} {p : List PatElem} {c : Char} :
    patAccepts (e :: p) c = (e.accepts c || patAccepts p c) := by
  simp [patAccepts]

theorem accepts_lit {a c : Char} : (PatElem.lit a).accepts c = (a == c) := rfl

theorem patMatchAt_length {pat : List PatElem} {u m : Str}
    (h : patMatchAt pat u = some m) : m.length = pat.length := by
  induction pat generalizing u m with
  | nil =>
    simp only [patMatchAt, Option.some.injEq] at h
    subst h; rfl
  | cons e p ih =>
    cases u with
    | nil => simp [patMatchAt] at h
    | cons c t =>
      rw [patMatchAt] at h
      by_cases hacc : e.accepts c
      · rw [if_pos hacc] at h
        cases hm' : patMatchAt p t with
        | none => rw [hm'] at h; simp at h
        | some m' =>
          rw [hm'] at h
          simp only [Option.map_some', Option.some.injEq] at h
          simp [← h, ih hm']
      · rw [if_neg hacc] at h; simp at h

theorem patMatchAt_front {pat : List PatElem} {u m : Str}
    (h : patMatchAt pat u = some m) : m <+: u := by
  induction pat generalizing u m with
  | nil =>
    simp only [patMatchAt, Option.some.injEq] at h
    subst h; exact List.nil_prefix
  | cons e p ih =>
    cases u with
    | nil => simp [patMatchAt] at h
    | cons c t =>
      rw [patMatchAt] at h
      by_cases hacc : e.accepts c
      · rw [if_pos hacc] at h
        cases hm' : patMatchAt p t with
        | none => rw [hm'] at h; simp at h
        | some m' =>
          rw [hm'] at h
          simp only [Option.map_some', Option.some.injEq] at h
          obtain ⟨rest, hrest⟩ := ih hm'
          exact h ▸ ⟨rest, by rw [List.cons_append, hrest]⟩
      · rw [if_neg hacc] at h; simp at h

theorem patMatchAt_mem_accepts {pat : List PatElem} {u m : Str}
    (h : patMatchAt pat u = some m) : ∀ c ∈ m, patAccepts pat c = true := by
  induction pat generalizing u m with
  | nil =>
    simp only [patMatchAt, Option.some.injEq] at h
    subst h; simp
  | cons e p ih =>
    cases u with
    | nil => simp [patMatchAt] at h
    | cons c t =>
      rw [patMatchAt] at h
      by_cases hacc : e.accepts c
      · rw [if_pos hacc] at h
        cases hm' : patMatchAt p t with
        | none => rw [hm'] at h; simp at h
        | some m' =>
          rw [hm'] at h
          simp only [Option.map_some', Option.some.injEq] at h
          intro d hd
          rw [← h] at hd
          rcases List.mem_cons.mp hd with rfl | hd'
          · simp [patAccepts_cons, hacc]
          · simp [patAccepts_cons, ih hm' d hd']
      · rw [if_neg hacc] at h; simp at h

theorem patMatchAt_append {pat : List PatElem} {d : Char} (v : Str) :
    ∀ u : Str, patAccepts pat d = false →
      patMatchAt pat (u ++ d :: v) = patMatchAt pat u := by
  induction pat with
  | nil => intro u _; simp [patMatchAt]
  | cons e p ih =>
    intro u hd
    have hed : e.accepts d = false := by
      rw [patAccepts_cons, Bool.or_eq_false_iff] at hd
      exact hd.1
    have hpd : patAccepts p d = false := by
      rw [patAccepts_cons, Bool.or_eq_false_iff] at hd
      exact hd.2
    cases u with
    | nil => simp [patMatchAt, hed]
    | cons c t =>
      by_cases hacc : e.accepts c
      · simp only [List.cons_append, patMatchAt, if_pos hacc]
        rw [show t.append (d :: v) = t ++ d :: v from rfl, ih t hpd]
      · simp [patMatchAt, hacc]

theorem patMatchAt_none_of_unacc {pat : List PatElem} {c : Char} (t : Str)
    (hne : pat ≠ []) (hc : patAccepts pat c = false) :
    patMatchAt pat (c :: t) = none := by
  cases pat with
  | nil => exact absurd rfl hne
  | cons e p =>
    have he : e.accepts c = false := by
      rw [patAccepts_cons, Bool.or_eq_false_iff] at hc
      exact hc.1
    simp [patMatchAt, he]

theorem patAccepts_litPat {s : Str} {c : Char} :
    patAccepts (litPat s) c = true ↔ c ∈ s := by
  induction s with
  | nil => simp [patAccepts, litPat]
  | cons a t ih =>
    have hlit : ((PatElem.lit a).accepts c = true) ↔ c = a := by
      rw [accepts_lit, beq_iff_eq, eq_comm]
    have hstep : patAccepts (litPat (a :: t)) c
        = ((PatElem.lit a).accepts c || patAccepts (litPat t) c) := by
      rw [show litPat (a :: t) = PatElem.lit a :: litPat t from rfl, patAccepts_cons]
    rw [hstep, List.mem_cons, Bool.or_eq_true, hlit, ih]

theorem patMatchAt_litPat_self (s v : Str) :
    patMatchAt (litPat s) (s ++ v) = some s := by
  induction s with
  | nil => simp [litPat, patMatchAt]
  | cons c t ih =>
    rw [show litPat (c :: t) = PatElem.lit c :: litPat t from rfl]
    rw [show (c :: t) ++ v = c :: (t ++ v) from rfl, patMatchAt]
    rw [if_pos (by rw [accepts_lit, beq_self_eq_true])]
    rw [ih]
    rfl

theorem patMatchAt_litPat_eq {s u m : Str}
    (h : patMatchAt (litPat s) u = some m) : m = s := by
  induction s generalizing u m with
  | nil =>
    simp only [litPat, List.map_nil, patMatchAt, Option.some.injEq] at h
    exact h.symm
  | cons c t ih =>
    cases u with
    | nil => simp [litPat, patMatchAt] at h
    | cons c' u' =>
      simp only [litPat, List.map_cons, patMatchAt] at h
      by_cases hacc : (PatElem.lit c).accepts c'
      · rw [if_pos hacc] at h
        cases hm' : patMatchAt (List.map PatElem.lit t) u' with
        | none => rw [hm'] at h; simp at h
        | some m' =>
          rw [hm'] at h
          simp only [Option.map_some', Option.some.injEq] at h
          have hc : c = c' := by simpa [accepts_lit] using hacc
          have hmt : m' = t := ih (by simpa [litPat] using hm')
          simp [← h, hmt, hc]
      · rw [if_neg hacc] at h; simp at h

theorem buildPattern_eq_litPat {w : Str}
    (h : ∀ c ∈ w, c ≠ '(' ∧ c ≠ ')' ∧ c ≠ '（' ∧ c ≠ '）') :
    buildPattern w = litPat w := by
  unfold buildPattern litPat
  apply List.map_congr_left
  intro c hc
  obtain ⟨h1, h2, h3, h4⟩ := h c hc
  simp [h1, h2, h3, h4]

/-! ### Properties of the split / replace / count scans -/

theorem consHead_ne_nil {c : Char} {S : List Str} : consHead c S ≠ [] := by
  cases S <;> simp [consHead]

theorem consHead_length {c : Char} {S : List Str} (h : S ≠ []) :
    (consHead c S).length = S.length := by
  cases S with
  | nil => exact absurd rfl h
  | cons p ps => simp [consHead]

theorem splitPat_nil (pat : List PatElem) : splitPat pat [] = [[]] := by
  rw [splitPat]

theorem splitPat_cons_match {pat : List PatElem} {c a : Char} {t m : Str}
    (h : patMatchAt pat (c :: t) = some (a :: m)) :
    splitPat pat (c :: t) = [] :: splitPat pat (t.drop m.length) := by
  rw [splitPat, h]

theorem splitPat_cons_none {pat : List PatElem} {c : Char} {t : Str}
    (h : patMatchAt pat (c :: t) = none) :
    splitPat pat (c :: t) = consHead c (splitPat pat t) := by
  rw [splitPat, h]

theorem splitPat_cons_emptyMatch {pat : List PatElem} {c : Char} {t : Str}
    (h : patMatchAt pat (c :: t) = some []) :
    splitPat pat (c :: t) = consHead c (splitPat pat t) := by
  rw [splitPat, h]

theorem splitPat_cons_nomatch {pat : List PatElem} {c : Char} {t : Str}
    (h : ∀ a m, patMatchAt pat (c :: t) = some (a :: m) → False) :
    splitPat pat (c :: t) = consHead c (splitPat pat t) := by
  cases hm : patMatchAt pat (c :: t) with
  | none => exact splitPat_cons_none hm
  | some m' =>
    cases m' with
    | nil => exact splitPat_cons_emptyMatch hm
    | cons a m => exact (h a m hm).elim

theorem splitPat_cons_unacc {pat : List PatElem} {c : Char} {t : Str}
    (hc : patAccepts pat c = false) :
    splitPat pat (c :: t) = consHead c (splitPat pat t) := by
  cases pat with
  | nil => exact splitPat_cons_emptyMatch rfl
  | cons e p =>
    exact splitPat_cons_none (patMatchAt_none_of_unacc t (List.cons_ne_nil e p) hc)

theorem splitPat_ne_nil (pat : List PatElem) (t : Str) : splitPat pat t ≠ [] := by
  induction t using splitPat.induct pat with
  | case1 => rw [splitPat_nil]; simp
  | case2 c t a m h ih => rw [splitPat_cons_match h]; simp
  | case3 c t h ih => rw [splitPat_cons_nomatch h]; exact consHead_ne_nil

theorem countGo_nil (pat : List PatElem) : countGo pat [] = 0 := by
  rw [countGo]

theorem countGo_cons_match {pat : List PatElem} {c a : Char} {t m : Str}
    (h : patMatchAt pat (c :: t) = some (a :: m)) :
    countGo pat (c :: t) = countGo pat (t.drop m.length) + 1 := by
  rw [countGo, h]

theorem countGo_cons_nomatch {pat : List PatElem} {c : Char} {t : Str}
    (h : ∀ a m, patMatchAt pat (c :: t) = some (a :: m) → False) :
    countGo pat (c :: t) = countGo pat t := by
  cases hm : patMatchAt pat (c :: t) with
  | none => rw [countGo, hm]
  | some m' =>
    cases m' with
    | nil => rw [countGo, hm]
    | cons a m => exact (h a m hm).elim

theorem splitPat_length (pat : List PatElem) (t : Str) :
    (splitPat pat t).length = countGo pat t + 1 := by
  induction t using splitPat.induct pat with
  | case1 => rw [splitPat_nil, countGo_nil]; rfl
  | case2 c t a m h ih =>
    rw [splitPat_cons_match h, countGo_cons_match h]
    simp [ih]
  | case3 c t h ih =>
    rw [splitPat_cons_nomatch h, countGo_cons_nomatch h,
      consHead_length (splitPat_ne_nil pat t), ih]

theorem splitPat_chars {pat : List PatElem} {t : Str} :
    ∀ piece ∈ splitPat pat t, ∀ c ∈ piece, c ∈ t := by
  induction t using splitPat.induct pat with
  | case1 =>
    rw [splitPat_nil]
    intro piece hp c hc
    simp at hp
    simp [hp] at hc
  | case2 ct t a m h ih =>
    rw [splitPat_cons_match h]
    intro piece hp c hc
    rcases List.mem_cons.mp hp with rfl | hp'
    · simp at hc
    · exact List.mem_cons_of_mem ct (List.mem_of_mem_drop (ih piece hp' c hc))
  | case3 ct t h ih =>
    rw [splitPat_cons_nomatch h]
    intro piece hp c hc
    cases hS : splitPat pat t with
    | nil => exact absurd hS (splitPat_ne_nil pat t)
    | cons p ps =>
      rw [hS] at hp
      simp only [consHead] at hp
      rcases List.mem_cons.mp hp with rfl | hp'
      · rcases List.mem_cons.mp hc with rfl | hc'
        · exact List.mem_cons_self c t
        · exact List.mem_cons_of_mem ct (ih p (hS ▸ List.mem_cons_self p ps) c hc')
      · exact List.mem_cons_of_mem ct (ih piece (hS ▸ List.mem_cons_of_mem p hp') c hc)

/-! ### Properties of `joinWith` -/

theorem joinWith_cons {sep s : Str} {S : List Str} (h : S ≠ []) :
    joinWith sep (s :: S) = s ++ sep ++ joinWith sep S := by
  cases S with
  | nil => exact absurd rfl h
  | cons p ps => rfl

theorem joinWith_consHead {sep : Str} {c : Char} {S : List Str} :
    joinWith sep (consHead c S) = c :: joinWith sep S := by
  cases S with
  | nil => simp [consHead, joinWith]
  | cons p ps =>
    cases ps with
    | nil => simp [consHead, joinWith]
    | cons q qs => simp [consHead, joinWith]

theorem joinWith_consPiece {sep s : Str} {S : List Str} :
    joinWith sep (consPiece s S) = s ++ joinWith sep S := by
  cases S with
  | nil => simp [consPiece, joinWith]
  | cons p ps =>
    cases ps with
    | nil => simp [consPiece, joinWith]
    | cons q qs => simp [consPiece, joinWith]

theorem glueSplits_ne_nil {A B : List Str} (h : A ≠ []) : glueSplits A B ≠ [] := by
  cases A with
  | nil => exact absurd rfl h
  | cons a A' =>
    cases A' with
    | nil =>
      cases B <;> simp [glueSplits, consPiece]
    | cons a' A'' => simp [glueSplits]

theorem joinWith_glue {sep : Str} {A B : List Str} :
    joinWith sep (glueSplits A B) = joinWith sep A ++ joinWith sep B := by
  induction A with
  | nil => simp [glueSplits, joinWith]
  | cons a A' ih =>
    cases A' with
    | nil => simp [glueSplits, joinWith, joinWith_consPiece]
    | cons a'' A'' =>
      rw [show glueSplits (a :: a'' :: A'') B = a :: glueSplits (a'' :: A'') B from rfl]
      rw [joinWith_cons (glueSplits_ne_nil (by simp)),
        joinWith_cons (show a'' :: A'' ≠ [] by simp), ih]
      simp

/-- Reconstruction: interleaving the split pieces with `w` recovers the
original text, provided every (nonempty) pattern match is exactly `w`. -/
theorem joinWith_splitPat (pat : List PatElem) (w : Str)
    (hw : ∀ u m, patMatchAt pat u = some m → m ≠ [] → m = w) :
    ∀ t, joinWith w (splitPat pat t) = t := by
  intro t
  induction t using splitPat.induct pat with
  | case1 => rw [splitPat_nil]; simp [joinWith]
  | case2 c t a m h ih =>
    rw [splitPat_cons_match h,
      joinWith_cons (splitPat_ne_nil pat (t.drop m.length)), ih]
    have hm : a :: m = w := hw _ _ h (by simp)
    obtain ⟨rest, hrest⟩ := patMatchAt_front h
    have htail : m ++ rest = t := by
      simp only [List.cons_append, List.cons.injEq] at hrest
      exact hrest.2
    have hdrop : rest = t.drop m.length := by rw [← htail, List.drop_left]
    rw [List.nil_append, ← hm, ← hdrop]
    exact hrest
  | case3 c t h ih =>
    rw [splitPat_cons_nomatch h, joinWith_consHead, ih]

theorem joinWith_splitPat_litPat (w : Str) (t : Str) :
    joinWith w (splitPat (litPat w) t) = t :=
  joinWith_splitPat (litPat w) w (fun _ _ h _ => patMatchAt_litPat_eq h) t

/-! ### Dollar substitution and the replace scan -/

theorem dollarSubst_no_dollar {r : Str} (h : hasDollarPat r = false)
    (m b a : Str) : dollarSubst m b a r = r := by
  induction r using dollarSubst.induct m b a with
  | case1 => rfl
  | case2 c => rfl
  | case3 r _ => simp [hasDollarPat] at h
  | case4 r _ _ => simp [hasDollarPat] at h
  | case5 r _ _ _ => simp [hasDollarPat] at h
  | case6 r _ _ _ _ => simp [hasDollarPat] at h
  | case7 d r hd1 hd2 hd3 hd4 ih =>
    rw [hasDollarPat] at h
    simp only [Bool.or_eq_false_iff] at h
    rw [dollarSubst, if_pos rfl, if_neg hd1, if_neg hd2, if_neg hd3, if_neg hd4, ih h.2]
  | case8 c d r hc ih =>
    rw [hasDollarPat] at h
    simp only [Bool.or_eq_false_iff] at h
    rw [dollarSubst, if_neg hc, ih h.2]

theorem replAllGo_nil (pat : List PatElem) (repl before : Str) :
    replAllGo pat repl before [] = [] := by
  rw [replAllGo]

theorem replAllGo_cons_match {pat : List PatElem} {repl before : Str} {c a : Char}
    {t m : Str} (h : patMatchAt pat (c :: t) = some (a :: m)) :
    replAllGo pat repl before (c :: t) =
      dollarSubst (a :: m) before (t.drop m.length) repl
        ++ replAllGo pat repl (before ++ (a :: m)) (t.drop m.length) := by
  rw [replAllGo, h]

theorem replAllGo_cons_nomatch {pat : List PatElem} {repl before : Str} {c : Char}
    {t : Str} (h : ∀ a m, patMatchAt pat (c :: t) = some (a :: m) → False) :
    replAllGo pat repl before (c :: t) = c :: replAllGo pat repl (before ++ [c]) t := by
  cases hm : patMatchAt pat (c :: t) with
  | none => rw [replAllGo, hm]
  | some m' =>
    cases m' with
    | nil => rw [replAllGo, hm]
    | cons a m => exact (h a m hm).elim

/-- With a dollar-free replacement, the global replace scan is exactly
"interleave the split pieces with the replacement". -/
theorem replAllGo_eq_joinWith {pat : List PatElem} {repl : Str}
    (hd : hasDollarPat repl = false) :
    ∀ before t, replAllGo pat repl before t = joinWith repl (splitPat pat t) := by
  intro before t
  induction before, t using replAllGo.induct pat repl with
  | case1 before => rw [replAllGo_nil, splitPat_nil]; rfl
  | case2 before c t a m h ih =>
    rw [replAllGo_cons_match h, splitPat_cons_match h,
      joinWith_cons (splitPat_ne_nil pat (t.drop m.length)), ih,
      dollarSubst_no_dollar hd]
    simp
  | case3 before c t h ih =>
    rw [replAllGo_cons_nomatch h, splitPat_cons_nomatch h, joinWith_consHead, ih]

theorem replaceAllJS_eq_joinWith {pat : List PatElem} {repl : Str} (t : Str)
    (hd : hasDollarPat repl = false) :
    replaceAllJS t pat repl = joinWith repl (splitPat pat t) :=
  replAllGo_eq_joinWith hd [] t

/-! ### Decomposition of the split scan over concatenations -/

theorem consPiece_nil_of_ne {S : List Str} (h : S ≠ []) : consPiece [] S = S := by
  cases S with
  | nil => exact absurd rfl h
  | cons p ps => simp [consPiece]

theorem consHead_consPiece {c : Char} {s : Str} {S : List Str} :
    consHead c (consPiece s S) = consPiece (c :: s) S := by
  cases S <;> simp [consHead, consPiece]

theorem glueSplits_cons {a : Str} {A B : List Str} (h : A ≠ []) :
    glueSplits (a :: A) B = a :: glueSplits A B := by
  cases A with
  | nil => exact absurd rfl h
  | cons a' A' => rfl

theorem glueSplits_consHead {c : Char} {A B : List Str} (h : A ≠ []) :
    glueSplits (consHead c A) B = consHead c (glueSplits A B) := by
  cases A with
  | nil => exact absurd rfl h
  | cons p A' =>
    cases A' with
    | nil =>
      cases B with
      | nil => simp [consHead, glueSplits, consPiece]
      | cons q qs => simp [consHead, glueSplits, consPiece]
    | cons p' A'' =>
      simp [consHead, glueSplits]

/-- The copy lemma: a leading string none of whose characters is accepted by
the pattern is copied verbatim into the first piece. -/
theorem splitPat_copy {pat : List PatElem} {s : Str}
    (hs : ∀ c ∈ s, patAccepts pat c = false) (v : Str) :
    splitPat pat (s ++ v) = consPiece s (splitPat pat v) := by
  induction s with
  | nil => simp [consPiece_nil_of_ne (splitPat_ne_nil pat v)]
  | cons c s' ih =>
    rw [List.cons_append, splitPat_cons_unacc (hs c (List.mem_cons_self c s')),
      ih (fun d hd => hs d (List.mem_cons_of_mem c hd)), consHead_consPiece]

/-- The boundary lemma: when the remainder `v` starts with a character the
pattern cannot accept (or is empty), no match crosses the boundary and the
split of the concatenation glues the two splits. -/
theorem splitPat_append {pat : List PatElem} {v : Str}
    (hv : ∀ d, v.head? = some d → patAccepts pat d = false) :
    ∀ u, splitPat pat (u ++ v) = glueSplits (splitPat pat u) (splitPat pat v) := by
  intro u
  generalize hn : u.length = n
  induction n using Nat.strong_induction_on generalizing u with
  | _ n ih =>
    match u with
    | [] =>
      rw [List.nil_append, splitPat_nil]
      rw [show glueSplits [[]] (splitPat pat v) = consPiece [] (splitPat pat v) from rfl,
        consPiece_nil_of_ne (splitPat_ne_nil pat v)]
    | c :: u' =>
      have heq : patMatchAt pat ((c :: u') ++ v) = patMatchAt pat (c :: u') := by
        cases hv0 : v with
        | nil => rw [List.append_nil]
        | cons d v' =>
          exact patMatchAt_append v' (c :: u') (hv d (by rw [hv0]; rfl))
      cases hm : patMatchAt pat (c :: u') with
      | none =>
        have hmv : patMatchAt pat (c :: (u' ++ v)) = none := heq.trans hm
        rw [show (c :: u') ++ v = c :: (u' ++ v) from rfl, splitPat_cons_none hmv,
          splitPat_cons_none hm,
          ih u'.length (by simp [← hn]) u' rfl,
          glueSplits_consHead (splitPat_ne_nil pat u')]
      | some m' =>
        cases m' with
        | nil =>
          have hmv : patMatchAt pat (c :: (u' ++ v)) = some [] := heq.trans hm
          rw [show (c :: u') ++ v = c :: (u' ++ v) from rfl,
            splitPat_cons_emptyMatch hmv, splitPat_cons_emptyMatch hm,
            ih u'.length (by simp [← hn]) u' rfl,
            glueSplits_consHead (splitPat_ne_nil pat u')]
        | cons a m =>
          have hmv : patMatchAt pat (c :: (u' ++ v)) = some (a :: m) := heq.trans hm
          have hlen : m.length ≤ u'.length := by
            have := (patMatchAt_front hm).length_le
            simpa using this
          rw [show (c :: u') ++ v = c :: (u' ++ v) from rfl,
            splitPat_cons_match hmv, splitPat_cons_match hm,
            List.drop_append_of_le_length hlen,
            ih (u'.drop m.length).length
              (by simp [← hn, List.length_drop]; omega)
              (u'.drop m.length) rfl,
            glueSplits_cons (splitPat_ne_nil pat (u'.drop m.length))]

/-! ### Occurrence characterisations and the placeholder-survival lemma -/

theorem jsIndexOfAux_isSome_iff {s t : Str} {i : Nat} :
    (jsIndexOfAux s t i).isSome = true ↔ s <:+: t := by
  induction t generalizing i with
  | nil =>
    rw [jsIndexOfAux]
    by_cases hs : s = []
    · simp [hs, List.infix_nil]
    · simp [hs, List.infix_nil]
  | cons c t' ih =>
    rw [jsIndexOfAux]
    by_cases hpre : s.isPrefixOf (c :: t')
    · simp only [if_pos hpre, Option.isSome_some, true_iff]
      exact (List.isPrefixOf_iff_prefix.mp hpre).isInfix
    · rw [if_neg hpre]
      rw [ih, List.infix_cons_iff]
      constructor
      · exact Or.inr
      · rintro (hp | hi)
        · exact absurd (List.isPrefixOf_iff_prefix.mpr hp) hpre
        · exact hi

theorem jsIncludes_iff_occurs {t s : Str} : jsIncludes t s = true ↔ s <:+: t :=
  jsIndexOfAux_isSome_iff

/-- Occurrences of a string none of whose characters is accepted by the
pattern survive the split-and-rejoin of a global replacement. -/
theorem infix_joinWith_splitPat {pat : List PatElem} {repl p : Str}
    (hp : ∀ c ∈ p, patAccepts pat c = false) :
    ∀ t, p <:+: t → p <:+: joinWith repl (splitPat pat t) := by
  intro t
  by_cases hpnil : p = []
  · intro _; exact hpnil ▸ List.nil_infix
  generalize hn : t.length = n
  induction n using Nat.strong_induction_on generalizing t with
  | _ n ihn =>
    intro hinf
    obtain ⟨u, w, hdecomp⟩ := hinf
    match u, hdecomp with
    | [], hdecomp =>
      have ht : t = p ++ w := by simpa using hdecomp.symm
      rw [ht, splitPat_copy hp w, joinWith_consPiece]
      exact ⟨[], joinWith repl (splitPat pat w), by simp⟩
    | c :: u', hdecomp =>
      have ht : t = c :: (u' ++ p ++ w) := by simpa using hdecomp.symm
      subst ht
      cases hm : patMatchAt pat (c :: (u' ++ p ++ w)) with
      | some m' =>
        cases m' with
        | nil =>
          rw [splitPat_cons_emptyMatch hm, joinWith_consHead]
          exact List.infix_cons
            (ihn (u' ++ p ++ w).length (by simp [← hn]) _ rfl ⟨u', w, rfl⟩)
        | cons a m =>
          -- the match cannot reach into the occurrence of `p`
          have hmlen : m.length ≤ u'.length := by
            by_contra hgt
            push_neg at hgt
            have hpm : (a :: m) <+: (c :: (u' ++ p ++ w)) := patMatchAt_front hm
            have hu : (c :: u') <+: (c :: (u' ++ p ++ w)) := by
              refine ⟨p ++ w, ?_⟩
              simp
            rcases List.prefix_or_prefix_of_prefix hu hpm with hle | hle
            · -- c :: u' is a prefix of the match, so the head of p is in the match
              obtain ⟨z, hz⟩ := hle
              have hz' : z ≠ [] := by
                intro hznil
                rw [hznil, List.append_nil] at hz
                have := congrArg List.length hz
                simp at this
                omega
              obtain ⟨d, p', rfl⟩ := List.exists_cons_of_ne_nil hpnil
              -- from (c :: u') ++ z = a :: m and the shape of t, z starts with d
              have hzfirst : ∃ z', z = d :: z' := by
                have hpref : (a :: m) <+: (c :: (u' ++ (d :: p') ++ w)) :=
                  patMatchAt_front hm
                obtain ⟨r, hr⟩ := hpref
                rw [← hz] at hr
                simp only [List.append_assoc, List.cons_append, List.cons.injEq] at hr
                have := hr.2
                -- u' ++ (z ++ r) = u' ++ (d :: p' ++ w)
                rw [← List.append_assoc] at this
                have hzr : z ++ r = (d :: p') ++ w := by
                  have h2 : u' ++ (z ++ r) = u' ++ ((d :: p') ++ w) := by
                    simpa [List.append_assoc] using this
                  exact List.append_cancel_left h2
                cases z with
                | nil => exact absurd rfl hz'
                | cons z0 z' =>
                  simp only [List.cons_append, List.cons.injEq] at hzr
                  exact ⟨z', by rw [hzr.1]⟩
              obtain ⟨z', rfl⟩ := hzfirst
              have hdmem : d ∈ a :: m := by
                rw [← hz]
                simp
              have hacc := patMatchAt_mem_accepts hm d hdmem
              have hunacc := hp d (List.mem_cons_self d p')
              rw [hacc] at hunacc
              exact Bool.noConfusion hunacc
            · have := hle.length_le
              simp at this
              omega
          rw [splitPat_cons_match hm,
            joinWith_cons (splitPat_ne_nil pat _)]
          have hdrop : (u' ++ p ++ w).drop m.length = (u'.drop m.length) ++ p ++ w := by
            rw [List.append_assoc, List.drop_append_of_le_length hmlen, List.append_assoc]
          have hrec : p <:+: joinWith repl (splitPat pat ((u' ++ p ++ w).drop m.length)) := by
            refine ihn ((u' ++ p ++ w).drop m.length).length ?_ _ rfl ?_
            · simp [← hn, List.length_drop]
              omega
            · rw [hdrop]
              exact ⟨u'.drop m.length, w, rfl⟩
          obtain ⟨s1, t1, h1⟩ := hrec
          refine ⟨repl ++ s1, t1, ?_⟩
          rw [List.nil_append, ← h1]
          simp [List.append_assoc]
      | none =>
        rw [splitPat_cons_none hm, joinWith_consHead]
        exact List.infix_cons
          (ihn (u' ++ p ++ w).length (by simp [← hn]) _ rfl ⟨u', w, rfl⟩)

/-- A replacement string is an infix of the rejoined pieces as soon as the
pattern matched at least once. -/
theorem infix_repl_of_match {pat : List PatElem} {repl t : Str}
    (h : countGo pat t ≠ 0) : repl <:+: joinWith repl (splitPat pat t) := by
  have hlen : (splitPat pat t).length = countGo pat t + 1 := splitPat_length pat t
  cases hS : splitPat pat t with
  | nil => exact absurd hS (splitPat_ne_nil pat t)
  | cons s1 S' =>
    cases S' with
    | nil =>
      rw [hS] at hlen
      simp at hlen
      omega
    | cons s2 S'' =>
      rw [joinWith_cons (by simp)]
      exact ⟨s1, joinWith repl (s2 :: S''), by simp⟩

/-! ### The manual-rule fold of `computedData` -/

theorem applyRule_empty {st : MaskState} {r : SensitiveWord} (h : r.target = []) :
    applyRule st r = st := by
  simp [applyRule, h]

theorem applyRule_nomatch {st : MaskState} {r : SensitiveWord} (h1 : r.target ≠ [])
    (h2 : countGo (buildPattern r.target) st.text = 0) : applyRule st r = st := by
  simp [applyRule, h1, h2]

theorem applyRule_match {st : MaskState} {r : SensitiveWord} (h1 : r.target ≠ [])
    (h2 : countGo (buildPattern r.target) st.text ≠ 0) :
    applyRule st r =
      { text := replaceAllJS st.text (buildPattern r.target) r.placeholder
        map := mapInsert st.map r.placeholder r.target
        totalCount := st.totalCount + countGo (buildPattern r.target) st.text } := by
  simp [applyRule, h1, h2]

theorem mapInsert_mem {m : MaskingMap} {k v : Str} {kv : Str × Str}
    (h : kv ∈ mapInsert m k v) : kv = (k, v) ∨ kv ∈ m := by
  unfold mapInsert at h
  by_cases hex : m.any (fun p => p.1 == k)
  · rw [if_pos hex] at h
    obtain ⟨p, hp, hpe⟩ := List.mem_map.mp h
    by_cases hpk : p.1 == k
    · left; rw [← hpe]; simp [hpk]
    · right; rw [← hpe]; simp [hpk]; exact hp
  · rw [if_neg hex] at h
    rcases List.mem_append.mp h with h' | h'
    · right; exact h'
    · left; simpa using h'

/-- The key invariant of the manual-rule fold: under the hygiene conditions
(`Good` keys are preserved by every rule's pattern and every placeholder is a
`Good`, dollar-free string), every key of the accumulated map stays an infix
of the accumulated text. -/
theorem foldl_applyRule_key_occurs (Good : Str → Prop) :
    ∀ (rs : List SensitiveWord),
      (∀ r ∈ rs, Good r.placeholder) →
      (∀ r ∈ rs, hasDollarPat r.placeholder = false) →
      (∀ k, Good k → ∀ r ∈ rs, ∀ c ∈ k, patAccepts (buildPattern r.target) c = false) →
      ∀ st : MaskState,
        (∀ kv ∈ st.map, Good kv.1 ∧ kv.1 <:+: st.text) →
        ∀ kv ∈ (rs.foldl applyRule st).map,
          Good kv.1 ∧ kv.1 <:+: (rs.foldl applyRule st).text := by
  intro rs
  induction rs with
  | nil => intro _ _ _ st hst kv hkv; exact hst kv hkv
  | cons r rs' ih =>
    intro hGood hdol hsurv st hst
    rw [List.foldl_cons]
    refine ih (fun s hs => hGood s (List.mem_cons_of_mem r hs))
      (fun s hs => hdol s (List.mem_cons_of_mem r hs))
      (fun k hk s hs => hsurv k hk s (List.mem_cons_of_mem r hs))
      (applyRule st r) ?_
    by_cases h1 : r.target = []
    · rw [applyRule_empty h1]; exact hst
    by_cases h2 : countGo (buildPattern r.target) st.text = 0
    · rw [applyRule_nomatch h1 h2]; exact hst
    rw [applyRule_match h1 h2]
    intro kv hkv
    simp only at hkv
    have hjoin : replaceAllJS st.text (buildPattern r.target) r.placeholder
        = joinWith r.placeholder (splitPat (buildPattern r.target) st.text) :=
      replaceAllJS_eq_joinWith st.text (hdol r (List.mem_cons_self r rs'))
    rcases mapInsert_mem hkv with rfl | hold
    · constructor
      · exact hGood r (List.mem_cons_self r rs')
      · simpa [hjoin] using
          @infix_repl_of_match (buildPattern r.target) r.placeholder st.text h2
    · obtain ⟨hg, hinf⟩ := hst kv hold
      refine ⟨hg, ?_⟩
      have := @infix_joinWith_splitPat (buildPattern r.target) r.placeholder kv.1
        (hsurv kv.1 hg r (List.mem_cons_self r rs')) st.text hinf
      simpa [hjoin] using this

/-- Claim C3, counterexample: with rules `hello → [XY]` and `XY → [Z]` on the
document `"hello"` (and no enabled detectors), the second rule's pattern
matches inside the first rule's placeholder, so the recorded key `[XY]` no
longer occurs in the final masked text `[[Z]]`. -/
theorem maskedText_key_missing_cex :
    "[XY]".data ∈ mapKeys (computedData "hello".data
      [⟨"1".data, "hello".data, "[XY]".data⟩, ⟨"2".data, "XY".data, "[Z]".data⟩] []).map
    ∧ ¬ ("[XY]".data <:+: (computedData "hello".data
      [⟨"1".data, "hello".data, "[XY]".data⟩, ⟨"2".data, "XY".data, "[Z]".data⟩] []).text) := by
  have htext : (computedData "hello".data
      [⟨"1".data, "hello".data, "[XY]".data⟩, ⟨"2".data, "XY".data, "[Z]".data⟩] []).text
      = "[[Z]]".data := by
    simp [computedData, List.insertionSort, List.orderedInsert, applyRule, countGo,
      patMatchAt, buildPattern, PatElem.accepts, replaceAllJS, replAllGo, dollarSubst,
      mapInsert]
  constructor
  · simp [computedData, List.insertionSort, List.orderedInsert, applyRule, countGo,
      patMatchAt, buildPattern, PatElem.accepts, replaceAllJS, replAllGo, dollarSubst,
      mapInsert, mapKeys]
  · rw [htext]; decide

/-- Claim C3 (amended): with no enabled detectors, every key of the placeholder
map returned by `computedData` appears verbatim in the returned masked text,
provided every rule's placeholder is free of dollar-substitution patterns and
no character of any placeholder can be matched by any rule's compiled pattern.
(The unrestricted claim is refuted by `maskedText_key_missing_cex`: a later
rule may match inside, and destroy, an earlier placeholder.) -/
theorem maskedText_contains_map_keys (doc : Str) (rules : List SensitiveWord)
    (hdol : ∀ r ∈ rules, hasDollarPat r.placeholder = false)
    (hunacc : ∀ r ∈ rules, ∀ s ∈ rules, ∀ c ∈ r.placeholder,
      patAccepts (buildPattern s.target) c = false) :
    ∀ k ∈ mapKeys (computedData doc rules []).map,
      k <:+: (computedData doc rules []).text := by
  intro k hk
  have hperm := List.perm_insertionSort
    (fun a b : SensitiveWord => b.target.length ≤ a.target.length) rules
  unfold computedData at hk ⊢
  simp only [List.foldl_nil] at hk ⊢
  obtain ⟨kv, hkv, rfl⟩ := List.mem_map.mp hk
  exact (foldl_applyRule_key_occurs (fun k => ∃ r ∈ rules, k = r.placeholder)
    (List.insertionSort (fun a b => b.target.length ≤ a.target.length) rules)
    (fun r hr => ⟨r, hperm.mem_iff.mp hr, rfl⟩)
    (fun r hr => hdol r (hperm.mem_iff.mp hr))
    (fun k hk' r hr c hc => by
      obtain ⟨r', hr', rfl⟩ := hk'
      exact hunacc r' hr' r (hperm.mem_iff.mp hr) c hc)
    { text := doc, map := [], totalCount := 0 } (by simp) kv hkv).2

/-- Claim C3, witness for the amended theorem at a concrete instance. -/
theorem maskedText_contains_map_keys_witness :
    ((∀ r ∈ [(⟨"1".data, "hello".data, "[A]".data⟩ : SensitiveWord)],
        hasDollarPat r.placeholder = false)
      ∧ (∀ r ∈ [(⟨"1".data, "hello".data, "[A]".data⟩ : SensitiveWord)],
          ∀ s ∈ [(⟨"1".data, "hello".data, "[A]".data⟩ : SensitiveWord)],
          ∀ c ∈ r.placeholder, patAccepts (buildPattern s.target) c = false))
    ∧ (∀ k ∈ mapKeys (computedData "hello world".data
        [⟨"1".data, "hello".data, "[A]".data⟩] []).map,
        k <:+: (computedData "hello world".data
          [⟨"1".data, "hello".data, "[A]".data⟩] []).text) :=
  ⟨⟨by decide, by decide⟩,
    maskedText_contains_map_keys "hello world".data
      [⟨"1".data, "hello".data, "[A]".data⟩] (by decide) (by decide)⟩

/-- Claim C2: `computedData` applies manual rules longest-target-first (stable
for ties), so with rules `TechCorp → [A]` and `Tech → [B]`, in either insertion
order and with no enabled detectors, masking `"TechCorp Inc"` yields
`"[A] Inc"` and never `"[B]Corp Inc"`; and for two rules with equal-length
targets the earlier-inserted rule is applied first. -/
theorem longestMatchFirst_techCorp :
    (computedData "TechCorp Inc".data
      [⟨"1".data, "TechCorp".data, "[A]".data⟩, ⟨"2".data, "Tech".data, "[B]".data⟩] []).text
      = "[A] Inc".data
    ∧ (computedData "TechCorp Inc".data
      [⟨"2".data, "Tech".data, "[B]".data⟩, ⟨"1".data, "TechCorp".data, "[A]".data⟩] []).text
      = "[A] Inc".data
    ∧ "[A] Inc".data ≠ "[B]Corp Inc".data
    ∧ (computedData "ab".data
      [⟨"1".data, "ab".data, "[P]".data⟩, ⟨"2".data, "ab".data, "[Q]".data⟩] []).text
      = "[P]".data := by
  refine ⟨?_, ?_, by decide, ?_⟩ <;>
    simp [computedData, List.insertionSort, List.orderedInsert, applyRule, countGo,
      patMatchAt, buildPattern, PatElem.accepts, replaceAllJS, replAllGo, dollarSubst,
      mapInsert]

/-- Claim C4: the compiled pattern of a manual rule collapses full-width and
half-width parentheses into one alternation class, so the rule
`ABC（北京）公司 → [COMPANY]` (captured with full-width parentheses) also
masks the half-width occurrence `ABC(北京)公司` in the same document, and its
pattern matches the half-width spelling directly. -/
theorem bracketNormalization_bothStyles :
    (computedData "ABC（北京）公司与ABC(北京)公司合作".data
      [⟨"1".data, "ABC（北京）公司".data, "[COMPANY]".data⟩] []).text
      = "[COMPANY]与[COMPANY]合作".data
    ∧ patMatchAt (buildPattern "ABC（北京）公司".data) "ABC(北京)公司".data
      = some "ABC(北京)公司".data := by
  constructor
  · simp [computedData, List.insertionSort, List.orderedInsert, applyRule, countGo,
      patMatchAt, buildPattern, PatElem.accepts, replaceAllJS, replAllGo, dollarSubst,
      mapInsert]
  · decide

/-! ### The first-occurrence index -/

/-- Specification of the `indexOf` scan: it returns `i + n` exactly when `n`
is the offset of the first occurrence. -/
theorem jsIndexOfAux_some_iff {s t : Str} {i j : Nat} :
    jsIndexOfAux s t i = some j ↔
      ∃ n, j = i + n ∧ s <+: t.drop n ∧ ∀ m < n, ¬ (s <+: t.drop m) := by
  induction t generalizing i with
  | nil =>
    rw [jsIndexOfAux]
    by_cases hs : s = []
    · subst hs
      rw [if_pos rfl]
      simp only [Option.some.injEq]
      constructor
      · rintro rfl
        exact ⟨0, by omega, List.nil_prefix, by omega⟩
      · rintro ⟨n, rfl, _, hmin⟩
        rcases Nat.eq_zero_or_pos n with rfl | hpos
        · rfl
        · exact absurd (List.nil_prefix) (hmin 0 hpos)
    · simp only [if_neg hs]
      constructor
      · rintro ⟨⟩
      · rintro ⟨n, _, hpre, _⟩
        simp only [List.drop_nil] at hpre
        exact absurd (List.prefix_nil.mp hpre) hs
  | cons c t' ih =>
    rw [jsIndexOfAux]
    by_cases hpre : s.isPrefixOf (c :: t')
    · simp only [if_pos hpre, Option.some.injEq]
      constructor
      · rintro rfl
        exact ⟨0, by omega, by simpa using List.isPrefixOf_iff_prefix.mp hpre, by omega⟩
      · rintro ⟨n, rfl, _, hmin⟩
        rcases Nat.eq_zero_or_pos n with rfl | hpos
        · rfl
        · exact absurd (by simpa using List.isPrefixOf_iff_prefix.mp hpre) (hmin 0 hpos)
    · rw [if_neg hpre, ih]
      constructor
      · rintro ⟨n, rfl, hp, hmin⟩
        refine ⟨n + 1, by omega, by simpa using hp, ?_⟩
        intro m hm
        cases m with
        | zero =>
          simpa using fun hc => hpre (List.isPrefixOf_iff_prefix.mpr hc)
        | succ m' =>
          have := hmin m' (by omega)
          simpa using this
      · rintro ⟨n, rfl, hp, hmin⟩
        cases n with
        | zero =>
          exact absurd (List.isPrefixOf_iff_prefix.mpr (by simpa using hp)) hpre
        | succ n' =>
          refine ⟨n', by omega, by simpa using hp, ?_⟩
          intro m hm
          have := hmin (m + 1) (by omega)
          simpa using this

/-- Claim C5: `sortedActiveRisks` returns exactly the unaddressed risks whose
`originalText` occurs in the working text (as a permutation of that filter),
sorted ascending by first-occurrence offset; this holds for every input order,
and on the three-risk example with distinct offsets both input orders produce
the identical sorted list. -/
theorem activeRisks_exact_and_sorted (currentText : Str) (risks : List RiskPoint) :
    ((sortedActiveRisks currentText risks).Perm
      (risks.filter (fun r => !r.isAddressed && jsIncludes currentText r.originalText))
    ∧ (sortedActiveRisks currentText risks).Sorted
        (fun a b => jsIndexOf currentText a.originalText
          ≤ jsIndexOf currentText b.originalText))
    ∧ (let rA : RiskPoint := ⟨"A".data, "X".data, [], [], .HIGH, [], false⟩
       let rB : RiskPoint := ⟨"B".data, "Y".data, [], [], .HIGH, [], false⟩
       let rC : RiskPoint := ⟨"C".data, "Z".data, [], [], .HIGH, [], false⟩
       sortedActiveRisks "aXbYcZ".data [rC, rA, rB] = [rA, rB, rC]
       ∧ sortedActiveRisks "aXbYcZ".data [rB, rC, rA] = [rA, rB, rC]) := by
  constructor
  · constructor
    · have hperm := List.perm_insertionSort
        (fun a b : RiskPoint => jsIndexOf currentText a.originalText
          ≤ jsIndexOf currentText b.originalText)
        ((visibleRisks currentText risks).filter (fun r => !r.isAddressed))
      refine hperm.trans ?_
      unfold visibleRisks
      rw [List.filter_filter]
      apply List.Perm.of_eq
      apply List.filter_congr
      intro r _
      cases hr : r.isAddressed <;> cases hinc : jsIncludes currentText r.originalText <;>
        simp [hr, hinc]
    · haveI : IsTotal RiskPoint (fun a b => jsIndexOf currentText a.originalText
          ≤ jsIndexOf currentText b.originalText) := ⟨fun a b => le_total _ _⟩
      haveI : IsTrans RiskPoint (fun a b => jsIndexOf currentText a.originalText
          ≤ jsIndexOf currentText b.originalText) := ⟨fun a b c => le_trans⟩
      exact List.sorted_insertionSort _ _
  · exact ⟨by decide, by decide⟩

/-- Claim C7, counterexample: undo does not restore a `null` saved selection.
With one history entry whose `selectedId` is `null` and a current selection
`r1`, `handleUndo` restores the text but leaves the selection at `r1`
(`if (prev.selectedId)` skips the falsy `null`). -/
theorem undo_null_selection_cex :
    (handleUndo ⟨"t".data, [], some "r1".data, [⟨"t0".data, [], none⟩],
        false, none⟩).currentText = "t0".data
    ∧ (handleUndo ⟨"t".data, [], some "r1".data, [⟨"t0".data, [], none⟩],
        false, none⟩).selectedRiskId = some "r1".data
    ∧ (⟨"t0".data, [], none⟩ : HistoryEntry).selectedId = none := by
  refine ⟨?_, ?_, rfl⟩ <;> decide

/-- Claim C7 (amended): `handleUndo` is a no-op on an empty history; otherwise
it pops the most recent entry, restores the working text and the risk list
verbatim, cancels any animation, and restores the selection only when the
saved selection is truthy (non-null and non-empty) — a saved `null` (or empty)
selection leaves the current selection unchanged.  Consequently undo right
after an accept restores the pre-accept text, risks and history exactly. -/
theorem handleUndo_spec (s : ReviewState) :
    (s.history = [] → handleUndo s = s)
    ∧ (∀ prev, s.history.getLast? = some prev →
        (handleUndo s).currentText = prev.text
        ∧ (handleUndo s).risks = prev.risks
        ∧ (handleUndo s).history = s.history.dropLast
        ∧ (handleUndo s).isAnimatingSuccess = false
        ∧ (handleUndo s).animatingRiskId = none
        ∧ (jsTruthy prev.selectedId = true → (handleUndo s).selectedRiskId = prev.selectedId)
        ∧ (jsTruthy prev.selectedId = false → (handleUndo s).selectedRiskId = s.selectedRiskId))
    ∧ (∀ risk : RiskPoint,
        (handleUndo (handleAcceptRisk s risk)).currentText = s.currentText
        ∧ (handleUndo (handleAcceptRisk s risk)).risks = s.risks
        ∧ (handleUndo (handleAcceptRisk s risk)).history = s.history
        ∧ (jsTruthy s.selectedRiskId = true →
            (handleUndo (handleAcceptRisk s risk)).selectedRiskId = s.selectedRiskId)) := by
  refine ⟨?_, ?_, ?_⟩
  · intro h
    simp [handleUndo, h]
  · intro prev hp
    have hne : s.history ≠ [] := by
      intro h0
      rw [h0] at hp
      simp at hp
    rw [handleUndo, if_neg hne, hp]
    refine ⟨rfl, rfl, rfl, rfl, rfl, ?_, ?_⟩ <;> intro ht <;> simp [ht]
  · intro risk
    have hlast : (handleAcceptRisk s risk).history.getLast?
        = some ⟨s.currentText, s.risks, s.selectedRiskId⟩ := by
      simp [handleAcceptRisk, List.getLast?_concat]
    have hne : (handleAcceptRisk s risk).history ≠ [] := by
      simp [handleAcceptRisk]
    rw [handleUndo, if_neg hne, hlast]
    refine ⟨rfl, rfl, ?_, ?_⟩
    · simp [handleAcceptRisk, List.dropLast_concat]
    · intro ht; simp [ht]

/-- Claim C7, witness for the amended theorem at a concrete state. -/
theorem handleUndo_spec_witness :
    ((⟨"t".data, [], some "r1".data, [⟨"t0".data, [], some "q".data⟩], false, none⟩ :
        ReviewState).history.getLast? = some ⟨"t0".data, [], some "q".data⟩)
    ∧ (handleUndo ⟨"t".data, [], some "r1".data, [⟨"t0".data, [], some "q".data⟩],
        false, none⟩).currentText = "t0".data := by
  refine ⟨by decide, ?_⟩
  exact ((handleUndo_spec _).2.1 ⟨"t0".data, [], some "q".data⟩ (by decide)).1

/-- Claim C10: when there is no active risk, `navigateRisk` is a no-op; when
the active list is non-empty and the current selection matches no active risk
(null, addressed, or no longer locatable), `next` selects the first active
risk and `prev` selects the last. -/
theorem navigateRisk_stale_selection (s : ReviewState) :
    (sortedActiveRisks s.currentText s.risks = [] →
      navigateRisk s .next = s ∧ navigateRisk s .prev = s)
    ∧ (∀ r0 rs', sortedActiveRisks s.currentText s.risks = r0 :: rs' →
        (∀ r ∈ r0 :: rs', idMatches r s.selectedRiskId = false) →
        navigateRisk s .next = { s with selectedRiskId := some r0.id }
        ∧ navigateRisk s .prev =
            { s with selectedRiskId :=
                (some (((r0 :: rs')).getLast (List.cons_ne_nil r0 rs')).id) }) := by
  constructor
  · intro h
    constructor <;> · rw [navigateRisk]; rw [h]; simp
  · intro r0 rs' hact hstale
    have hidx : List.findIdx? (fun r => idMatches r s.selectedRiskId) (r0 :: rs') = none :=
      List.findIdx?_eq_none_iff.mpr hstale
    have hlen : (r0 :: rs').length ≠ 0 := by simp
    constructor
    · rw [navigateRisk, hact]
      simp only [hidx, if_neg hlen]
      have h1 : ¬ ((-1 : Int) + 1 ≥ ((r0 :: rs').length : Int)) := by
        simp only [List.length_cons]
        push_cast
        omega
      rw [if_neg h1]
      have h2 : ¬ ((-1 : Int) + 1 < 0) := by omega
      rw [if_neg h2]
      simp
    · rw [navigateRisk, hact]
      simp only [hidx, if_neg hlen]
      have h1 : ¬ ((-1 : Int) - 1 ≥ ((r0 :: rs').length : Int)) := by
        simp only [List.length_cons]
        push_cast
        omega
      rw [if_neg h1]
      have h2 : ((-1 : Int) - 1 < 0) := by omega
      rw [if_pos h2]
      have h3 : (((r0 :: rs').length : Int) - 1).toNat = (r0 :: rs').length - 1 := by
        simp only [List.length_cons]
        push_cast
        omega
      rw [h3]
      have h4 : (r0 :: rs').length - 1 < (r0 :: rs').length := by simp
      rw [List.get?_eq_get h4]
      rw [List.getLast_eq_get]

/-- Claim C10, witness at a concrete state: one active risk, stale selection. -/
theorem navigateRisk_stale_selection_witness :
    (sortedActiveRisks "ab".data [⟨"r1".data, "a".data, [], [], .HIGH, [], false⟩]
        = [⟨"r1".data, "a".data, [], [], .HIGH, [], false⟩])
    ∧ (∀ r ∈ [(⟨"r1".data, "a".data, [], [], RiskLevel.HIGH, [], false⟩ : RiskPoint)],
        idMatches r (none : Option Str) = false)
    ∧ navigateRisk ⟨"ab".data, [⟨"r1".data, "a".data, [], [], .HIGH, [], false⟩],
          none, [], false, none⟩ .next
        = { (⟨"ab".data, [⟨"r1".data, "a".data, [], [], .HIGH, [], false⟩],
              none, [], false, none⟩ : ReviewState) with
            selectedRiskId := some "r1".data } := by
  refine ⟨by decide, by decide, ?_⟩
  exact ((navigateRisk_stale_selection
    ⟨"ab".data, [⟨"r1".data, "a".data, [], [], .HIGH, [], false⟩], none, [], false, none⟩).2
    ⟨"r1".data, "a".data, [], [], .HIGH, [], false⟩ [] (by decide) (by decide)).1

/-! ### Segmentation lemmas -/

theorem joinWith_nil_map (t : Str) : joinWith [] (t.map (fun c => [c])) = t := by
  induction t with
  | nil => rfl
  | cons c t' ih =>
    cases t' with
    | nil => rfl
    | cons d t'' =>
      simp only [List.map_cons] at ih ⊢
      rw [joinWith_cons (by simp), ih]
      simp

/-- `split` followed by `join` on the same separator reconstructs the
string. -/
theorem joinWith_splitOnJS (t sep : Str) : joinWith sep (splitOnJS t sep) = t := by
  unfold splitOnJS
  by_cases h : sep = []
  · subst h
    rw [if_pos rfl]
    exact joinWith_nil_map t
  · rw [if_neg h]
    exact joinWith_splitPat_litPat sep t

theorem concatTexts_nil : concatTexts [] = [] := rfl

theorem concatTexts_cons (sg : Segment) (segs : List Segment) :
    concatTexts (sg :: segs) = sg.text ++ concatTexts segs := by
  simp [concatTexts]

theorem concatTexts_append (A B : List Segment) :
    concatTexts (A ++ B) = concatTexts A ++ concatTexts B := by
  simp [concatTexts]

theorem concatTexts_interleaveSegs (c : Candidate) (pieces : List Str) :
    concatTexts (interleaveSegs c pieces) = joinWith c.matchText pieces := by
  induction pieces with
  | nil => rfl
  | cons p rest ih =>
    cases rest with
    | nil => simp [interleaveSegs, joinWith, concatTexts]
    | cons q qs =>
      rw [show interleaveSegs c (p :: q :: qs)
          = { text := p } :: highlightOf c :: interleaveSegs c (q :: qs) from rfl,
        joinWith_cons (by simp), concatTexts_cons, concatTexts_cons, ih]
      simp [highlightOf]

theorem concatTexts_splitPart (c : Candidate) (part : Segment) :
    concatTexts (splitPart c part) = part.text := by
  unfold splitPart
  by_cases h1 : jsTruthy part.riskId
  · simp [h1, concatTexts]
  · rw [if_neg h1]
    by_cases h2 : (splitOnJS part.text c.matchText).length > 1
    · simp only [if_pos h2]
      rw [concatTexts_interleaveSegs, joinWith_splitOnJS]
    · simp [h2, concatTexts]

theorem concatTexts_applyCandidate (parts : List Segment) (c : Candidate) :
    concatTexts (applyCandidate parts c) = concatTexts parts := by
  unfold applyCandidate
  induction parts with
  | nil => rfl
  | cons part rest ih =>
    simp only [List.map_cons, List.flatten_cons]
    rw [concatTexts_append, concatTexts_splitPart, concatTexts_cons, ih]

/-- Claim C8: the segments produced by the segmentation of
`renderDocumentContent` cover the whole working text with no gaps and no
overlaps: concatenating all segment texts, for any working text, any risk set
and any animating risk, reproduces the working text exactly. -/
theorem segmentation_coverage (currentText : Str) (risks : List RiskPoint)
    (animatingRiskId : Option Str) :
    concatTexts (segmentDocument currentText risks animatingRiskId) = currentText := by
  unfold segmentDocument
  generalize sortedSegments currentText risks animatingRiskId = cs
  induction cs using List.reverseRecOn with
  | nil => simp [concatTexts]
  | append_singleton cs' c ih =>
    rw [List.foldl_append, List.foldl_cons, List.foldl_nil, concatTexts_applyCandidate]
    exact ih

theorem countGo_litPat_ne_zero_of_occurs {s t : Str} (hs : s ≠ []) (h : s <:+: t) :
    countGo (litPat s) t ≠ 0 := by
  induction t with
  | nil => exact absurd (List.infix_nil.mp h) hs
  | cons c t' ih =>
    cases hm : patMatchAt (litPat s) (c :: t') with
    | some m' =>
      cases m' with
      | nil => exact absurd (patMatchAt_litPat_eq hm).symm hs
      | cons a m => rw [countGo_cons_match hm]; omega
    | none =>
      have hnp : ¬ (s <+: c :: t') := by
        intro hp
        obtain ⟨v, hv⟩ := hp
        rw [← hv, patMatchAt_litPat_self] at hm
        exact Option.noConfusion hm
      rcases List.infix_cons_iff.mp h with hp | hi
      · exact absurd hp hnp
      · rw [countGo_cons_nomatch (fun a m hsome => by rw [hm] at hsome; cases hsome)]
        exact ih hi

theorem interleaveSegs_filter_length (c : Candidate) (pieces : List Str) :
    ((interleaveSegs c pieces).filter (fun sg => sg.riskId.isSome)).length
      = pieces.length - 1 := by
  induction pieces with
  | nil => rfl
  | cons p rest ih =>
    cases rest with
    | nil => rfl
    | cons q qs =>
      rw [show interleaveSegs c (p :: q :: qs)
          = { text := p } :: highlightOf c :: interleaveSegs c (q :: qs) from rfl]
      simp only [List.filter_cons]
      norm_num [highlightOf]
      rw [ih]
      simp

theorem jsIndexOf_ne_neg_one_of_includes {t s : Str} (h : jsIncludes t s = true) :
    jsIndexOf t s ≠ -1 := by
  unfold jsIncludes at h
  cases hm : jsIndexOfAux s t 0 with
  | none => rw [hm] at h; simp at h
  | some n =>
    have hval : jsIndexOf t s = (n : Int) := by unfold jsIndexOf; rw [hm]
    rw [hval]
    omega

/-- Claim C9, counterexample: with one unaddressed risk whose `originalText`
`"ab"` occurs twice in the working text `"abab"`, the segmentation highlights
both occurrences (two risk-tagged segments, the fourth segment being the
highlighted second occurrence) — the later occurrence does not remain plain. -/
theorem segmentation_second_occurrence_highlighted_cex :
    ((segmentDocument "abab".data
      [⟨"r1".data, "ab".data, [], [], .HIGH, "X".data, false⟩] none).filter
        (fun sg => sg.riskId.isSome)).length = 2
    ∧ (segmentDocument "abab".data
      [⟨"r1".data, "ab".data, [], [], .HIGH, "X".data, false⟩] none).get? 3
      = some ⟨"ab".data, some "r1".data, some RiskLevel.HIGH, false⟩ := by
  constructor <;>
  · simp [segmentDocument, sortedSegments, segmentsToHighlight, sortedActiveRisks,
      visibleRisks, jsIncludes, jsIndexOfAux, jsIndexOf, List.insertionSort,
      List.orderedInsert, applyCandidate, splitPart, jsTruthy, splitOnJS, splitPat,
      patMatchAt, litPat, PatElem.accepts, consHead, interleaveSegs, highlightOf]

/-- Claim C9 (amended): during segmentation the split on a candidate's
substring is global, so within a still-plain segment every (leftmost
non-overlapping) occurrence of the substring — not only the first — becomes a
highlighted segment tagged with that risk.  For a single unaddressed,
locatable risk the produced segments are exactly the split pieces of the
working text interleaved with highlighted segments, and the number of
highlighted segments equals the number of occurrences. -/
theorem segmentation_highlights_every_occurrence (t : Str) (r : RiskPoint)
    (hadd : r.isAddressed = false) (hne : r.originalText ≠ [])
    (hinc : jsIncludes t r.originalText = true) :
    segmentDocument t [r] none
      = interleaveSegs ⟨r, r.originalText, false⟩ (splitOnJS t r.originalText)
    ∧ ((segmentDocument t [r] none).filter (fun sg => sg.riskId.isSome)).length
      = countGo (litPat r.originalText) t := by
  have hactive : sortedActiveRisks t [r] = [r] := by
    unfold sortedActiveRisks visibleRisks
    simp [hadd, hinc, List.insertionSort]
  have hsorted : sortedSegments t [r] none = [⟨r, r.originalText, false⟩] := by
    unfold sortedSegments segmentsToHighlight
    rw [hactive]
    simp [jsIndexOf_ne_neg_one_of_includes hinc, List.insertionSort]
  have hcount : countGo (litPat r.originalText) t ≠ 0 :=
    countGo_litPat_ne_zero_of_occurs hne (jsIncludes_iff_occurs.mp hinc)
  have hpieces : (splitOnJS t r.originalText).length > 1 := by
    unfold splitOnJS
    rw [if_neg hne, splitPat_length]
    omega
  have hmain : segmentDocument t [r] none
      = interleaveSegs ⟨r, r.originalText, false⟩ (splitOnJS t r.originalText) := by
    unfold segmentDocument
    rw [hsorted, List.foldl_cons, List.foldl_nil]
    unfold applyCandidate splitPart
    simp only [List.map_cons, List.map_nil, List.flatten]
    rw [if_neg (by simp [jsTruthy])]
    rw [if_pos hpieces]
    simp
  refine ⟨hmain, ?_⟩
  rw [hmain, interleaveSegs_filter_length]
  unfold splitOnJS
  rw [if_neg hne, splitPat_length]
  omega

/-- Claim C9, witness for the amended theorem on `"abab"` with target
`"ab"`. -/
theorem segmentation_highlights_every_occurrence_witness :
    ((⟨"r1".data, "ab".data, [], [], .HIGH, "X".data, false⟩ : RiskPoint).isAddressed = false
      ∧ (⟨"r1".data, "ab".data, [], [], .HIGH, "X".data, false⟩ : RiskPoint).originalText ≠ []
      ∧ jsIncludes "abab".data
          (⟨"r1".data, "ab".data, [], [], .HIGH, "X".data, false⟩ : RiskPoint).originalText
        = true)
    ∧ segmentDocument "abab".data
        [⟨"r1".data, "ab".data, [], [], .HIGH, "X".data, false⟩] none
      = interleaveSegs
          ⟨⟨"r1".data, "ab".data, [], [], .HIGH, "X".data, false⟩, "ab".data, false⟩
          (splitOnJS "abab".data "ab".data) :=
  ⟨⟨rfl, by decide, by decide⟩,
    (segmentation_highlights_every_occurrence "abab".data
      ⟨"r1".data, "ab".data, [], [], .HIGH, "X".data, false⟩ rfl (by decide) (by decide)).1⟩

/-- Claim C6, counterexample: `String.prototype.replace` interprets `$&` in
the replacement string, so accepting a risk whose `suggestedText` is `"$&$&"`
on working text `"ab"` (originalText `"a"`) produces `"aab"` — the first
occurrence is not replaced by the suggested text verbatim, which would give
`"$&$&b"`. -/
theorem accept_dollar_substitution_cex :
    (handleAcceptRisk
      ⟨"ab".data, [⟨"r1".data, "a".data, [], [], .HIGH, "$&$&".data, false⟩],
        none, [], false, none⟩
      ⟨"r1".data, "a".data, [], [], .HIGH, "$&$&".data, false⟩).currentText
      = "aab".data
    ∧ "aab".data ≠ "$&$&".data ++ "b".data := by
  constructor <;> decide

/-- Claim C6 (amended): provided `suggestedText` contains no
dollar-substitution pattern, `handleAcceptRisk` replaces exactly the first
occurrence of `originalText` in the working text by `suggestedText` (the text
left and right of that single occurrence is untouched, so the replace is not
global); if `originalText` does not occur, the working text is unchanged; in
both cases the matching risk records are marked addressed and nothing else in
the risk list changes — the not-found case is a silent no-op, not an error. -/
theorem handleAcceptRisk_spec (s : ReviewState) (risk : RiskPoint)
    (hdol : hasDollarPat risk.suggestedText = false) :
    (jsIncludes s.currentText risk.originalText = false →
      (handleAcceptRisk s risk).currentText = s.currentText)
    ∧ (∀ n, jsIndexOfAux risk.originalText s.currentText 0 = some n →
        (handleAcceptRisk s risk).currentText
          = s.currentText.take n ++ risk.suggestedText
            ++ s.currentText.drop (n + risk.originalText.length)
        ∧ risk.originalText <+: s.currentText.drop n
        ∧ (∀ m < n, ¬ (risk.originalText <+: s.currentText.drop m)))
    ∧ (handleAcceptRisk s risk).risks
        = s.risks.map (fun r => if r.id == risk.id then { r with isAddressed := true } else r)
    ∧ (∀ r ∈ s.risks, r.id = risk.id →
        { r with isAddressed := true } ∈ (handleAcceptRisk s risk).risks) := by
  refine ⟨?_, ?_, rfl, ?_⟩
  · intro habs
    unfold jsIncludes at habs
    have hnone : jsIndexOfAux risk.originalText s.currentText 0 = none := by
      cases hm : jsIndexOfAux risk.originalText s.currentText 0 with
      | none => rfl
      | some n => rw [hm] at habs; simp at habs
    show replaceFirstJS s.currentText risk.originalText risk.suggestedText = s.currentText
    unfold replaceFirstJS
    rw [hnone]
  · intro n hn
    obtain ⟨n', hj, hpre, hmin⟩ := jsIndexOfAux_some_iff.mp hn
    have hnn : n' = n := by omega
    subst hnn
    refine ⟨?_, hpre, hmin⟩
    show replaceFirstJS s.currentText risk.originalText risk.suggestedText = _
    unfold replaceFirstJS
    rw [hn]
    simp [dollarSubst_no_dollar hdol]
  · intro r hr hid
    show { r with isAddressed := true }
      ∈ s.risks.map (fun r => if r.id == risk.id then { r with isAddressed := true } else r)
    refine List.mem_map.mpr ⟨r, hr, ?_⟩
    rw [if_pos (by simp [hid])]

/-- Claim C6, witness for the amended theorem: text `"ab"`, originalText
`"a"` at offset 0, suggestedText `"X"`. -/
theorem handleAcceptRisk_spec_witness :
    (hasDollarPat ("X".data) = false
      ∧ jsIndexOfAux "a".data "ab".data 0 = some 0)
    ∧ (handleAcceptRisk
        ⟨"ab".data, [⟨"r1".data, "a".data, [], [], .HIGH, "X".data, false⟩],
          none, [], false, none⟩
        ⟨"r1".data, "a".data, [], [], .HIGH, "X".data, false⟩).currentText
      = "ab".data.take 0 ++ "X".data ++ "ab".data.drop (0 + "a".data.length) :=
  ⟨⟨by decide, by decide⟩,
    ((handleAcceptRisk_spec
      ⟨"ab".data, [⟨"r1".data, "a".data, [], [], .HIGH, "X".data, false⟩],
        none, [], false, none⟩
      ⟨"r1".data, "a".data, [], [], .HIGH, "X".data, false⟩ (by decide)).2.1 0 (by decide)).1⟩

/-! ### Token lemmas for the round-trip proof -/

theorem render_append (A B : List Tok) : render (A ++ B) = render A ++ render B := by
  induction A with
  | nil => rfl
  | cons tk A' ih =>
    cases tk with
    | frag s => simp only [List.cons_append, render, List.append_eq, ih, List.append_assoc]
    | ph p w => simp only [List.cons_append, render, List.append_eq, ih, List.append_assoc]

theorem restore_append (A B : List Tok) : restore (A ++ B) = restore A ++ restore B := by
  induction A with
  | nil => rfl
  | cons tk A' ih =>
    cases tk with
    | frag s => simp only [List.cons_append, restore, List.append_eq, ih, List.append_assoc]
    | ph p w => simp only [List.cons_append, restore, List.append_eq, ih, List.append_assoc]

theorem render_tokSplitFrag (p w : Str) (pieces : List Str) :
    render (tokSplitFrag p w pieces) = joinWith p pieces := by
  induction pieces with
  | nil => rfl
  | cons s rest ih =>
    cases rest with
    | nil => simp [tokSplitFrag, render, joinWith]
    | cons q qs =>
      rw [show tokSplitFrag p w (s :: q :: qs)
          = .frag s :: .ph p w :: tokSplitFrag p w (q :: qs) from rfl,
        joinWith_cons (by simp)]
      simp only [render, ih, List.append_assoc]

theorem restore_tokSplitFrag (p w : Str) (pieces : List Str) :
    restore (tokSplitFrag p w pieces) = joinWith w pieces := by
  induction pieces with
  | nil => rfl
  | cons s rest ih =>
    cases rest with
    | nil => simp [tokSplitFrag, restore, joinWith]
    | cons q qs =>
      rw [show tokSplitFrag p w (s :: q :: qs)
          = .frag s :: .ph p w :: tokSplitFrag p w (q :: qs) from rfl,
        joinWith_cons (by simp)]
      simp only [restore, ih, List.append_assoc]

theorem SepOK_tokSplitFrag_append {p w : Str} {B : List Tok}
    (h1 : headNotFrag B) (h2 : SepOK B) :
    ∀ pieces, SepOK (tokSplitFrag p w pieces ++ B) := by
  intro pieces
  induction pieces with
  | nil => simpa [tokSplitFrag] using h2
  | cons s rest ih =>
    cases rest with
    | nil => simpa [tokSplitFrag, SepOK] using ⟨h1, h2⟩
    | cons q qs =>
      rw [show tokSplitFrag p w (s :: q :: qs)
          = .frag s :: .ph p w :: tokSplitFrag p w (q :: qs) from rfl]
      simp only [List.cons_append, SepOK]
      exact ⟨trivial, ih⟩

theorem maskToks_headNotFrag {pat : List PatElem} {p w : Str} {ts : List Tok}
    (h : headNotFrag ts) : headNotFrag (maskToks pat p w ts) := by
  cases ts with
  | nil => trivial
  | cons tk ts' =>
    cases tk with
    | frag s => exact absurd h (by simp [headNotFrag])
    | ph q u => simp [maskToks, headNotFrag]

theorem SepOK_maskToks {pat : List PatElem} {p w : Str} :
    ∀ ts, SepOK ts → SepOK (maskToks pat p w ts) := by
  intro ts
  induction ts with
  | nil => intro _; trivial
  | cons tk ts' ih =>
    cases tk with
    | frag s =>
      intro h
      obtain ⟨h1, h2⟩ := h
      rw [show maskToks pat p w (.frag s :: ts')
          = tokSplitFrag p w (splitPat pat s) ++ maskToks pat p w ts' from rfl]
      exact SepOK_tokSplitFrag_append (maskToks_headNotFrag h1) (ih h2) _
    | ph q u =>
      intro h
      rw [show maskToks pat p w (.ph q u :: ts') = .ph q u :: maskToks pat p w ts' from rfl]
      exact ih h

theorem tokSplitFrag_ph_mem {p w q u : Str} :
    ∀ pieces, Tok.ph q u ∈ tokSplitFrag p w pieces → q = p ∧ u = w := by
  intro pieces
  induction pieces with
  | nil => intro h; simp [tokSplitFrag] at h
  | cons s rest ih =>
    cases rest with
    | nil =>
      intro h
      simp [tokSplitFrag] at h
    | cons x xs =>
      intro h
      rw [show tokSplitFrag p w (s :: x :: xs)
          = .frag s :: .ph p w :: tokSplitFrag p w (x :: xs) from rfl] at h
      rcases List.mem_cons.mp h with h' | h'
      · cases h'
      · rcases List.mem_cons.mp h' with h'' | h''
        · cases h''; exact ⟨rfl, rfl⟩
        · exact ih h''

theorem tokSplitFrag_frag_mem {p w s : Str} :
    ∀ pieces, Tok.frag s ∈ tokSplitFrag p w pieces → s ∈ pieces := by
  intro pieces
  induction pieces with
  | nil => intro h; simp [tokSplitFrag] at h
  | cons x rest ih =>
    cases rest with
    | nil =>
      intro h
      simp [tokSplitFrag] at h
      simp [h]
    | cons y ys =>
      intro h
      rw [show tokSplitFrag p w (x :: y :: ys)
          = .frag x :: .ph p w :: tokSplitFrag p w (y :: ys) from rfl] at h
      rcases List.mem_cons.mp h with h' | h'
      · cases h'; exact List.mem_cons_self _ _
      · rcases List.mem_cons.mp h' with h'' | h''
        · cases h''
        · exact List.mem_cons_of_mem _ (ih h'')

theorem maskToks_ph_mem {pat : List PatElem} {p w q u : Str} :
    ∀ ts, Tok.ph q u ∈ maskToks pat p w ts → (q = p ∧ u = w) ∨ Tok.ph q u ∈ ts := by
  intro ts
  induction ts with
  | nil => intro h; simp [maskToks] at h
  | cons tk ts' ih =>
    cases tk with
    | frag s =>
      intro h
      rw [show maskToks pat p w (.frag s :: ts')
          = tokSplitFrag p w (splitPat pat s) ++ maskToks pat p w ts' from rfl] at h
      rcases List.mem_append.mp h with h' | h'
      · exact Or.inl (tokSplitFrag_ph_mem _ h')
      · rcases ih h' with h'' | h''
        · exact Or.inl h''
        · exact Or.inr (List.mem_cons_of_mem _ h'')
    | ph q' u' =>
      intro h
      rw [show maskToks pat p w (.ph q' u' :: ts')
          = .ph q' u' :: maskToks pat p w ts' from rfl] at h
      rcases List.mem_cons.mp h with h' | h'
      · exact Or.inr (h' ▸ List.mem_cons_self _ _)
      · rcases ih h' with h'' | h''
        · exact Or.inl h''
        · exact Or.inr (List.mem_cons_of_mem _ h'')

theorem maskToks_frag_mem {pat : List PatElem} {p w s : Str} :
    ∀ ts, Tok.frag s ∈ maskToks pat p w ts →
      ∃ f, Tok.frag f ∈ ts ∧ s ∈ splitPat pat f := by
  intro ts
  induction ts with
  | nil => intro h; simp [maskToks] at h
  | cons tk ts' ih =>
    cases tk with
    | frag f =>
      intro h
      rw [show maskToks pat p w (.frag f :: ts')
          = tokSplitFrag p w (splitPat pat f) ++ maskToks pat p w ts' from rfl] at h
      rcases List.mem_append.mp h with h' | h'
      · exact ⟨f, List.mem_cons_self _ _, tokSplitFrag_frag_mem _ h'⟩
      · obtain ⟨f', hf', hs'⟩ := ih h'
        exact ⟨f', List.mem_cons_of_mem _ hf', hs'⟩
    | ph q' u' =>
      intro h
      rw [show maskToks pat p w (.ph q' u' :: ts')
          = .ph q' u' :: maskToks pat p w ts' from rfl] at h
      rcases List.mem_cons.mp h with h' | h'
      · cases h'
      · obtain ⟨f', hf', hs'⟩ := ih h'
        exact ⟨f', List.mem_cons_of_mem _ hf', hs'⟩

theorem render_head_unacc {pat : List PatElem} {ts : List Tok}
    (h1 : headNotFrag ts)
    (h2 : ∀ q u, Tok.ph q u ∈ ts → q ≠ [] ∧ ∀ c ∈ q, patAccepts pat c = false) :
    ∀ d, (render ts).head? = some d → patAccepts pat d = false := by
  cases ts with
  | nil => intro d hd; simp [render] at hd
  | cons tk ts' =>
    cases tk with
    | frag s => exact absurd h1 (by simp [headNotFrag])
    | ph q u =>
      intro d hd
      obtain ⟨hq, hunacc⟩ := h2 q u (List.mem_cons_self _ _)
      cases hqe : q with
      | nil => exact absurd hqe hq
      | cons q0 q' =>
        subst hqe
        rw [show render (Tok.ph (q0 :: q') u :: ts') = q0 :: (q' ++ render ts') from rfl] at hd
        simp only [List.head?_cons, Option.some.injEq] at hd
        exact hd ▸ hunacc q0 (List.mem_cons_self _ _)

/-- Applying one rule over the rendered text is the same as splitting every
fragment at the token level: the inserted placeholder blocks are never touched
because no pattern match can include any of their characters. -/
theorem render_maskToks {pat : List PatElem} {p w : Str} :
    ∀ toks, SepOK toks →
      (∀ q u, Tok.ph q u ∈ toks → q ≠ [] ∧ ∀ c ∈ q, patAccepts pat c = false) →
      joinWith p (splitPat pat (render toks)) = render (maskToks pat p w toks) := by
  intro toks
  induction toks with
  | nil => intro _ _; rw [show render ([] : List Tok) = [] from rfl, splitPat_nil]; rfl
  | cons tk ts ih =>
    cases tk with
    | frag f =>
      intro hsep hbl
      have hsep' : headNotFrag ts ∧ SepOK ts := hsep
      have hbl' : ∀ q u, Tok.ph q u ∈ ts → q ≠ [] ∧ ∀ c ∈ q, patAccepts pat c = false :=
        fun q u hq => hbl q u (List.mem_cons_of_mem _ hq)
      rw [show render (Tok.frag f :: ts) = f ++ render ts from rfl,
        splitPat_append (render_head_unacc hsep'.1 hbl') f, joinWith_glue,
        show maskToks pat p w (Tok.frag f :: ts)
          = tokSplitFrag p w (splitPat pat f) ++ maskToks pat p w ts from rfl,
        render_append, render_tokSplitFrag, ih hsep'.2 hbl']
    | ph q u =>
      intro hsep hbl
      obtain ⟨hq, hunacc⟩ := hbl q u (List.mem_cons_self _ _)
      have hsep' : SepOK ts := hsep
      have hbl' : ∀ q' u', Tok.ph q' u' ∈ ts → q' ≠ [] ∧ ∀ c ∈ q', patAccepts pat c = false :=
        fun q' u' hq' => hbl q' u' (List.mem_cons_of_mem _ hq')
      rw [show render (Tok.ph q u :: ts) = q ++ render ts from rfl,
        splitPat_copy hunacc, joinWith_consPiece,
        show maskToks pat p w (Tok.ph q u :: ts) = Tok.ph q u :: maskToks pat p w ts from rfl,
        show render (Tok.ph q u :: maskToks pat p w ts)
          = q ++ render (maskToks pat p w ts) from rfl,
        ih hsep' hbl']

theorem restore_maskToks {pat : List PatElem} {p w : Str}
    (hw : ∀ u m, patMatchAt pat u = some m → m ≠ [] → m = w) :
    ∀ toks, restore (maskToks pat p w toks) = restore toks := by
  intro toks
  induction toks with
  | nil => rfl
  | cons tk ts ih =>
    cases tk with
    | frag f =>
      rw [show maskToks pat p w (Tok.frag f :: ts)
          = tokSplitFrag p w (splitPat pat f) ++ maskToks pat p w ts from rfl,
        restore_append, restore_tokSplitFrag, joinWith_splitPat pat w hw f,
        show restore (Tok.frag f :: ts) = f ++ restore ts from rfl, ih]
    | ph q' u' =>
      rw [show maskToks pat p w (Tok.ph q' u' :: ts)
          = Tok.ph q' u' :: maskToks pat p w ts from rfl,
        show restore (Tok.ph q' u' :: maskToks pat p w ts)
          = u' ++ restore (maskToks pat p w ts) from rfl, ih]
      rfl

theorem splitPat_self_block {k x : Str} (hk : k ≠ []) :
    splitPat (litPat k) (k ++ x) = [] :: splitPat (litPat k) x := by
  cases hke : k with
  | nil => exact absurd hke hk
  | cons a k' =>
    subst hke
    have hmatch : patMatchAt (litPat (a :: k')) (a :: (k' ++ x)) = some (a :: k') := by
      have := patMatchAt_litPat_self (a :: k') x
      rwa [show (a :: k') ++ x = a :: (k' ++ x) from rfl] at this
    rw [show (a :: k') ++ x = a :: (k' ++ x) from rfl, splitPat_cons_match hmatch,
      List.drop_left]

/-- One unmasking step over the rendered text is the token-level replacement
of every block carrying the processed key: fragments and other blocks contain
none of the key's characters, so the only occurrences of the key are the
inserted blocks themselves. -/
theorem render_unmask_step {k v : Str} (hk : k ≠ []) :
    ∀ toks,
      (∀ s, Tok.frag s ∈ toks → ∀ c ∈ s, c ∉ k) →
      (∀ q u, Tok.ph q u ∈ toks → (q = k → u = v) ∧ (q ≠ k → ∀ c ∈ q, c ∉ k)) →
      joinWith v (splitPat (litPat k) (render toks)) = render (unmaskToks k toks) := by
  intro toks
  induction toks with
  | nil => intro _ _; rw [show render ([] : List Tok) = [] from rfl, splitPat_nil]; rfl
  | cons tk ts ih =>
    cases tk with
    | frag s =>
      intro hf hb
      have hs : ∀ c ∈ s, patAccepts (litPat k) c = false := by
        intro c hc
        cases h' : patAccepts (litPat k) c
        · rfl
        · exact absurd (patAccepts_litPat.mp h')
            (hf s (List.mem_cons_self _ _) c hc)
      rw [show render (Tok.frag s :: ts) = s ++ render ts from rfl,
        splitPat_copy hs, joinWith_consPiece,
        show unmaskToks k (Tok.frag s :: ts) = Tok.frag s :: unmaskToks k ts from rfl,
        show render (Tok.frag s :: unmaskToks k ts)
          = s ++ render (unmaskToks k ts) from rfl,
        ih (fun s' hs' => hf s' (List.mem_cons_of_mem _ hs'))
          (fun q' u' hq' => hb q' u' (List.mem_cons_of_mem _ hq'))]
    | ph q u =>
      intro hf hb
      by_cases hqk : q = k
      · subst hqk
        have hu : u = v := (hb q u (List.mem_cons_self _ _)).1 rfl
        subst hu
        rw [show render (Tok.ph q u :: ts) = q ++ render ts from rfl,
          splitPat_self_block hk,
          joinWith_cons (splitPat_ne_nil _ _),
          show unmaskToks q (Tok.ph q u :: ts) = Tok.frag u :: unmaskToks q ts from
            (by simp [unmaskToks]),
          show render (Tok.frag u :: unmaskToks q ts)
            = u ++ render (unmaskToks q ts) from rfl,
          ih (fun s' hs' => hf s' (List.mem_cons_of_mem _ hs'))
            (fun q' u' hq' => hb q' u' (List.mem_cons_of_mem _ hq'))]
        simp
      · have hqnk : ∀ c ∈ q, c ∉ k := (hb q u (List.mem_cons_self _ _)).2 hqk
        have hs : ∀ c ∈ q, patAccepts (litPat k) c = false := by
          intro c hc
          cases h' : patAccepts (litPat k) c
          · rfl
          · exact absurd (patAccepts_litPat.mp h') (hqnk c hc)
        rw [show render (Tok.ph q u :: ts) = q ++ render ts from rfl,
          splitPat_copy hs, joinWith_consPiece,
          show unmaskToks k (Tok.ph q u :: ts) = Tok.ph q u :: unmaskToks k ts from
            (by simp [unmaskToks, hqk]),
          show render (Tok.ph q u :: unmaskToks k ts)
            = q ++ render (unmaskToks k ts) from rfl,
          ih (fun s' hs' => hf s' (List.mem_cons_of_mem _ hs'))
            (fun q' u' hq' => hb q' u' (List.mem_cons_of_mem _ hq'))]

theorem unmaskToks_frag_mem {k s : Str} :
    ∀ ts, Tok.frag s ∈ unmaskToks k ts →
      Tok.frag s ∈ ts ∨ ∃ u, Tok.ph k u ∈ ts ∧ s = u := by
  intro ts
  induction ts with
  | nil => intro h; simp [unmaskToks] at h
  | cons tk ts' ih =>
    cases tk with
    | frag f =>
      intro h
      rcases List.mem_cons.mp h with h' | h'
      · cases h'; exact Or.inl (List.mem_cons_self _ _)
      · rcases ih h' with h'' | ⟨u', hu', hs⟩
        · exact Or.inl (List.mem_cons_of_mem _ h'')
        · exact Or.inr ⟨u', List.mem_cons_of_mem _ hu', hs⟩
    | ph q u =>
      intro h
      rw [show unmaskToks k (Tok.ph q u :: ts')
          = (if q = k then Tok.frag u else Tok.ph q u) :: unmaskToks k ts' from rfl] at h
      rcases List.mem_cons.mp h with h' | h'
      · by_cases hqk : q = k
        · rw [if_pos hqk] at h'
          cases h'
          exact Or.inr ⟨s, by rw [hqk]; exact List.mem_cons_self _ _, rfl⟩
        · rw [if_neg hqk] at h'
          cases h'
      · rcases ih h' with h'' | ⟨u', hu', hs⟩
        · exact Or.inl (List.mem_cons_of_mem _ h'')
        · exact Or.inr ⟨u', List.mem_cons_of_mem _ hu', hs⟩

theorem unmaskToks_ph_mem {k q u : Str} :
    ∀ ts, Tok.ph q u ∈ unmaskToks k ts → Tok.ph q u ∈ ts ∧ q ≠ k := by
  intro ts
  induction ts with
  | nil => intro h; simp [unmaskToks] at h
  | cons tk ts' ih =>
    cases tk with
    | frag f =>
      intro h
      rcases List.mem_cons.mp h with h' | h'
      · cases h'
      · obtain ⟨h1, h2⟩ := ih h'
        exact ⟨List.mem_cons_of_mem _ h1, h2⟩
    | ph q' u' =>
      intro h
      rw [show unmaskToks k (Tok.ph q' u' :: ts')
          = (if q' = k then Tok.frag u' else Tok.ph q' u') :: unmaskToks k ts' from rfl] at h
      rcases List.mem_cons.mp h with h' | h'
      · by_cases hqk : q' = k
        · rw [if_pos hqk] at h'
          cases h'
        · rw [if_neg hqk] at h'
          cases h'
          exact ⟨List.mem_cons_self _ _, hqk⟩
      · obtain ⟨h1, h2⟩ := ih h'
        exact ⟨List.mem_cons_of_mem _ h1, h2⟩

theorem restore_unmaskToks {k : Str} : ∀ ts, restore (unmaskToks k ts) = restore ts := by
  intro ts
  induction ts with
  | nil => rfl
  | cons tk ts' ih =>
    cases tk with
    | frag f =>
      rw [show unmaskToks k (Tok.frag f :: ts') = Tok.frag f :: unmaskToks k ts' from rfl,
        show restore (Tok.frag f :: unmaskToks k ts')
          = f ++ restore (unmaskToks k ts') from rfl, ih]
      rfl
    | ph q u =>
      by_cases hqk : q = k
      · rw [show unmaskToks k (Tok.ph q u :: ts') = Tok.frag u :: unmaskToks k ts' from
          (by simp [unmaskToks, hqk]),
          show restore (Tok.frag u :: unmaskToks k ts')
            = u ++ restore (unmaskToks k ts') from rfl, ih]
        rfl
      · rw [show unmaskToks k (Tok.ph q u :: ts') = Tok.ph q u :: unmaskToks k ts' from
          (by simp [unmaskToks, hqk]),
          show restore (Tok.ph q u :: unmaskToks k ts')
            = u ++ restore (unmaskToks k ts') from rfl, ih]
        rfl

theorem render_eq_restore_of_no_ph :
    ∀ ts : List Tok, (∀ q u, Tok.ph q u ∉ ts) → render ts = restore ts := by
  intro ts
  induction ts with
  | nil => intro _; rfl
  | cons tk ts' ih =>
    cases tk with
    | frag f =>
      intro h
      rw [show render (Tok.frag f :: ts') = f ++ render ts' from rfl,
        show restore (Tok.frag f :: ts') = f ++ restore ts' from rfl,
        ih (fun q u hq => h q u (List.mem_cons_of_mem _ hq))]
    | ph q u =>
      intro h
      exact absurd (List.mem_cons_self _ _) (h q u)

theorem ph_infix_render {q u : Str} :
    ∀ ts, Tok.ph q u ∈ ts → q <:+: render ts := by
  intro ts
  induction ts with
  | nil => intro h; cases h
  | cons tk ts' ih =>
    cases tk with
    | frag f =>
      intro h
      rcases List.mem_cons.mp h with h' | h'
      · cases h'
      · obtain ⟨s1, t1, hst⟩ := ih h'
        refine ⟨f ++ s1, t1, ?_⟩
        rw [show render (Tok.frag f :: ts') = f ++ render ts' from rfl, ← hst]
        simp
    | ph q' u' =>
      intro h
      rcases List.mem_cons.mp h with h' | h'
      · cases h'
        exact ⟨[], render ts', by simp [render]⟩
      · obtain ⟨s1, t1, hst⟩ := ih h'
        refine ⟨q' ++ s1, t1, ?_⟩
        rw [show render (Tok.ph q' u' :: ts') = q' ++ render ts' from rfl, ← hst]
        simp

/-! ### Map lemmas -/

theorem mapGet_of_mem_nodup {m : MaskingMap} {k v : Str}
    (hnd : (mapKeys m).Nodup) (h : (k, v) ∈ m) : mapGet m k = v := by
  induction m with
  | nil => cases h
  | cons kv' m' ih =>
    obtain ⟨k', v'⟩ := kv'
    by_cases hkk : k' = k
    · subst hkk
      have hv : v' = v := by
        rcases List.mem_cons.mp h with h' | h'
        · exact (Prod.mk.injEq _ _ _ _ ▸ h').symm.1.symm ▸ rfl
        · exfalso
          have : k' ∈ mapKeys m' := List.mem_map.mpr ⟨(k', v), h', rfl⟩
          simp [mapKeys] at hnd
          exact hnd.1 v h'
      subst hv
      unfold mapGet
      rw [List.find?_cons_of_pos _ (by simp)]
      rfl
    · have hmem : (k, v) ∈ m' := by
        rcases List.mem_cons.mp h with h' | h'
        · exact absurd (congrArg Prod.fst h').symm hkk
        · exact h'
      have hnd' : (mapKeys m').Nodup := by
        simp [mapKeys] at hnd ⊢
        exact hnd.2
      have := ih hnd' hmem
      unfold mapGet at this ⊢
      rwa [List.find?_cons_of_neg _ (by simp [hkk])]

theorem mapInsert_self_mem (m : MaskingMap) (k v : Str) : (k, v) ∈ mapInsert m k v := by
  unfold mapInsert
  by_cases hex : m.any (fun p => p.1 == k)
  · rw [if_pos hex]
    obtain ⟨p, hp, hpk⟩ := List.any_eq_true.mp hex
    refine List.mem_map.mpr ⟨p, hp, ?_⟩
    rw [if_pos hpk]
  · rw [if_neg hex]
    simp

theorem mem_mapInsert_of_ne {m : MaskingMap} {k v : Str} {kv : Str × Str}
    (h : kv ∈ m) (hne : kv.1 ≠ k) : kv ∈ mapInsert m k v := by
  unfold mapInsert
  by_cases hex : m.any (fun p => p.1 == k)
  · rw [if_pos hex]
    refine List.mem_map.mpr ⟨kv, h, ?_⟩
    rw [if_neg (by simp [hne])]
  · rw [if_neg hex]
    exact List.mem_append_left _ h

theorem mapKeys_mapInsert_of_mem {m : MaskingMap} {k v : Str}
    (h : k ∈ mapKeys m) : mapKeys (mapInsert m k v) = mapKeys m := by
  have hex : m.any (fun p => p.1 == k) = true := by
    obtain ⟨kv, hkv, hfst⟩ := List.mem_map.mp h
    exact List.any_eq_true.mpr ⟨kv, hkv, by simp [hfst]⟩
  unfold mapInsert
  rw [if_pos hex]
  unfold mapKeys
  rw [List.map_map]
  apply List.map_congr_left
  intro p _
  by_cases hpk : p.1 == k
  · simp only [Function.comp, if_pos hpk]
    exact (eq_of_beq hpk).symm
  · simp only [Function.comp, if_neg hpk]

theorem mapKeys_mapInsert_of_not_mem {m : MaskingMap} {k v : Str}
    (h : k ∉ mapKeys m) : mapKeys (mapInsert m k v) = mapKeys m ++ [k] := by
  have hex : m.any (fun p => p.1 == k) = false := by
    rw [List.any_eq_false]
    intro p hp
    simp only [beq_iff_eq]
    intro hpk
    exact h (List.mem_map.mpr ⟨p, hp, hpk⟩)
  unfold mapInsert
  rw [if_neg (by simp [hex])]
  unfold mapKeys
  simp

/-! ### The masking fold preserves the token invariant -/

theorem foldl_applyRule_MaskInv (doc : Str) (rules : List SensitiveWord)
    (hpf : ∀ r ∈ rules, parenFree r.target)
    (hne : ∀ r ∈ rules, r.placeholder ≠ [])
    (hdol : ∀ r ∈ rules, hasDollarPat r.placeholder = false)
    (htgt : ∀ r ∈ rules, ∀ s ∈ rules, ∀ c ∈ r.placeholder, c ∉ s.target)
    (hpair : ∀ r ∈ rules, ∀ s ∈ rules, r ≠ s → ∀ c ∈ r.placeholder, c ∉ s.placeholder) :
    ∀ rs : List SensitiveWord, (∀ r ∈ rs, r ∈ rules) →
      ∀ st toks, MaskInv doc rules st toks →
        ∃ toks', MaskInv doc rules (rs.foldl applyRule st) toks' := by
  intro rs
  induction rs with
  | nil => intro _ st toks hinv; exact ⟨toks, hinv⟩
  | cons r rs' ih =>
    intro hsub st toks hinv
    rw [List.foldl_cons]
    have hr : r ∈ rules := hsub r (List.mem_cons_self _ _)
    have hstep : ∃ toks1, MaskInv doc rules (applyRule st r) toks1 := by
      by_cases h1 : r.target = []
      · exact ⟨toks, by rwa [applyRule_empty h1]⟩
      by_cases h2 : countGo (buildPattern r.target) st.text = 0
      · exact ⟨toks, by rwa [applyRule_nomatch h1 h2]⟩
      obtain ⟨htext, hrest, hsep, hfrag, hblock, hmap, hnodup⟩ := hinv
      have hlit : buildPattern r.target = litPat r.target := buildPattern_eq_litPat (hpf r hr)
      -- characters of recorded placeholders are never matched by this pattern
      have hblcond : ∀ q u, Tok.ph q u ∈ toks →
          q ≠ [] ∧ ∀ c ∈ q, patAccepts (buildPattern r.target) c = false := by
        intro q u hq
        obtain ⟨r', hr', hq', hu'⟩ := hmap (q, u) (hblock q u hq)
        simp only at hq' hu'
        refine ⟨by rw [hq']; exact hne r' hr', ?_⟩
        intro c hc
        rw [hlit]
        cases hacc : patAccepts (litPat r.target) c
        · rfl
        · exact absurd (patAccepts_litPat.mp hacc)
            (htgt r' hr' r hr c (by rw [← hq']; exact hc))
      refine ⟨maskToks (buildPattern r.target) r.placeholder r.target toks, ?_⟩
      rw [applyRule_match h1 h2]
      refine ⟨?_, ?_, ?_, ?_, ?_, ?_, ?_⟩
      · -- text = render of split tokens
        show replaceAllJS st.text (buildPattern r.target) r.placeholder = _
        rw [replaceAllJS_eq_joinWith st.text (hdol r hr), htext]
        exact render_maskToks toks hsep hblcond
      · -- restoring still yields the document
        rw [restore_maskToks (fun u m hm hmne => by
          rw [hlit] at hm
          exact patMatchAt_litPat_eq hm) toks]
        exact hrest
      · exact SepOK_maskToks toks hsep
      · -- fragment characters still come from the document
        intro s hs c hc
        obtain ⟨f, hf, hpiece⟩ := maskToks_frag_mem toks hs
        exact hfrag f hf c (splitPat_chars s hpiece c hc)
      · -- every block is recorded in the updated map
        intro q u hq
        simp only
        rcases maskToks_ph_mem toks hq with ⟨rfl, rfl⟩ | hold
        · exact mapInsert_self_mem st.map _ _
        · have hin : (q, u) ∈ st.map := hblock q u hold
          by_cases hqp : q = r.placeholder
          · obtain ⟨r', hr', hq', hu'⟩ := hmap (q, u) hin
            simp only at hq' hu'
            by_cases hrr : r' = r
            · subst hrr
              rw [hq', hu']
              exact mapInsert_self_mem st.map _ _
            · exfalso
              have hqne : q ≠ [] := by rw [hq']; exact hne r' hr'
              obtain ⟨c0, q', rfl⟩ := List.exists_cons_of_ne_nil hqne
              exact hpair r' hr' r hr hrr c0 (by rw [← hq']; exact List.mem_cons_self _ _)
                (by rw [← hqp]; exact List.mem_cons_self _ _)
          · exact mem_mapInsert_of_ne hin hqp
      · -- map entries still record rules
        intro kv hkv
        simp only at hkv
        rcases mapInsert_mem hkv with rfl | hold
        · exact ⟨r, hr, rfl, rfl⟩
        · exact hmap kv hold
      · -- keys stay unique
        simp only
        by_cases hk : r.placeholder ∈ mapKeys st.map
        · rw [mapKeys_mapInsert_of_mem hk]
          exact hnodup
        · rw [mapKeys_mapInsert_of_not_mem hk]
          refine List.Nodup.append hnodup (List.nodup_singleton _) ?_
          intro a ha hb
          simp at hb
          exact hk (hb ▸ ha)
    obtain ⟨toks1, hinv1⟩ := hstep
    exact ih (fun s hs => hsub s (List.mem_cons_of_mem _ hs)) (applyRule st r) toks1 hinv1

/-! ### The unmasking fold restores the document -/

theorem unmask_foldl_restore (doc : Str) (rules : List SensitiveWord) (map : MaskingMap)
    (hne : ∀ r ∈ rules, r.placeholder ≠ [])
    (hdoc : ∀ r ∈ rules, ∀ c ∈ r.placeholder, c ∉ doc)
    (htgt : ∀ r ∈ rules, ∀ s ∈ rules, ∀ c ∈ r.placeholder, c ∉ s.target)
    (hpair : ∀ r ∈ rules, ∀ s ∈ rules, r ≠ s → ∀ c ∈ r.placeholder, c ∉ s.placeholder)
    (hmap : ∀ kv ∈ map, ∃ r ∈ rules, kv.1 = r.placeholder ∧ kv.2 = r.target)
    (hnodup : (mapKeys map).Nodup) :
    ∀ keys : List Str, (∀ k ∈ keys, k ∈ mapKeys map) →
      ∀ toks,
        (∀ s, Tok.frag s ∈ toks → ∀ c ∈ s, c ∈ doc ∨ ∃ r ∈ rules, c ∈ r.target) →
        (∀ q u, Tok.ph q u ∈ toks → q ∈ keys ∧ (q, u) ∈ map) →
        keys.foldl (fun result ph => joinWith (mapGet map ph) (splitOnJS result ph))
          (render toks) = restore toks := by
  intro keys
  induction keys with
  | nil =>
    intro _ toks hfr hbl
    rw [List.foldl_nil]
    exact render_eq_restore_of_no_ph toks
      (fun q u hq => absurd ((hbl q u hq).1) (List.not_mem_nil q))
  | cons k keys' ih =>
    intro hkeys toks hfr hbl
    rw [List.foldl_cons]
    obtain ⟨⟨k0, v0⟩, hkv0, hfst⟩ := List.mem_map.mp (hkeys k (List.mem_cons_self _ _))
    simp only at hfst
    subst hfst
    obtain ⟨rk, hrk, hqk, _⟩ := hmap (k0, v0) hkv0
    simp only at hqk
    have hkne : k0 ≠ [] := by rw [hqk]; exact hne rk hrk
    have hstep : joinWith (mapGet map k0) (splitOnJS (render toks) k0)
        = render (unmaskToks k0 toks) := by
      rw [show splitOnJS (render toks) k0 = splitPat (litPat k0) (render toks) from
        (by unfold splitOnJS; rw [if_neg hkne])]
      apply render_unmask_step hkne toks
      · intro s hs c hc
        intro hck
        rcases hfr s hs c hc with hcd | ⟨r', hr', hct⟩
        · exact hdoc rk hrk c (by rw [← hqk]; exact hck) hcd
        · exact htgt rk hrk r' hr' c (by rw [← hqk]; exact hck) hct
      · intro q u hq
        constructor
        · intro hqk0
          subst hqk0
          exact (mapGet_of_mem_nodup hnodup ((hbl _ u hq).2)).symm
        · intro hqne c hcq hck
          obtain ⟨rq, hrq, hqq, _⟩ := hmap (q, u) ((hbl q u hq).2)
          simp only at hqq
          have hrr : rq ≠ rk := by
            intro hrr
            rw [hrr] at hqq
            exact hqne (hqq.trans hqk.symm)
          exact hpair rq hrq rk hrk hrr c (by rw [← hqq]; exact hcq)
            (by rw [← hqk]; exact hck)
    rw [hstep, ih (fun k' hk' => hkeys k' (List.mem_cons_of_mem _ hk'))
      (unmaskToks k0 toks) ?_ ?_, restore_unmaskToks]
    · intro s hs c hc
      rcases unmaskToks_frag_mem toks hs with hold | ⟨u', hu', hsu⟩
      · exact hfr s hold c hc
      · subst hsu
        obtain ⟨r', hr', _, hu''⟩ := hmap (k0, s) ((hbl k0 s hu').2)
        simp only at hu''
        exact Or.inr ⟨r', hr', by rw [← hu'']; exact hc⟩
    · intro q u hq
      obtain ⟨hold, hqne⟩ := unmaskToks_ph_mem toks hq
      obtain ⟨hkeysq, hmem⟩ := hbl q u hold
      rcases List.mem_cons.mp hkeysq with rfl | hkeys'
      · exact absurd rfl hqne
      · exact ⟨hkeys', hmem⟩

/-- Claim C1, counterexample: the rule `a → b` has a literal, trivially
non-overlapping target, yet masking `"ab"` gives `"bb"` (map `b → a`) and
unmasking `"bb"` gives `"aa"`, not the original `"ab"` — the placeholder
collides with untouched document text. -/
theorem masking_roundTrip_cex :
    unmaskText (computedData "ab".data [⟨"1".data, "a".data, "b".data⟩] []).map
        (computedData "ab".data [⟨"1".data, "a".data, "b".data⟩] []).text
      = "aa".data
    ∧ "aa".data ≠ "ab".data := by
  constructor
  · simp [computedData, List.insertionSort, List.orderedInsert, applyRule, countGo,
      patMatchAt, buildPattern, PatElem.accepts, replaceAllJS, replAllGo, dollarSubst,
      mapInsert, unmaskText, mapKeys, mapGet, splitOnJS, splitPat, litPat, consHead,
      joinWith, List.find?]
  · decide

/-- Claim C1 (amended): masking followed by unmasking is the identity on the
document for every rule set whose targets are literal (no parentheses of
either width, so bracket normalisation is inert) and whose placeholders are
fresh: nonempty, free of dollar-substitution patterns, and using characters
that occur neither in the document, nor in any rule's target, nor in any
other rule's placeholder.  Without the freshness provisos the round trip
fails (`masking_roundTrip_cex`). -/
theorem masking_unmask_roundTrip (doc : Str) (rules : List SensitiveWord)
    (hpf : ∀ r ∈ rules, parenFree r.target)
    (hne : ∀ r ∈ rules, r.placeholder ≠ [])
    (hdol : ∀ r ∈ rules, hasDollarPat r.placeholder = false)
    (hdoc : ∀ r ∈ rules, ∀ c ∈ r.placeholder, c ∉ doc)
    (htgt : ∀ r ∈ rules, ∀ s ∈ rules, ∀ c ∈ r.placeholder, c ∉ s.target)
    (hpair : ∀ r ∈ rules, ∀ s ∈ rules, r ≠ s → ∀ c ∈ r.placeholder, c ∉ s.placeholder) :
    unmaskText (computedData doc rules []).map (computedData doc rules []).text = doc := by
  have hperm := List.perm_insertionSort
    (fun a b : SensitiveWord => b.target.length ≤ a.target.length) rules
  have hinv0 : MaskInv doc rules { text := doc, map := [], totalCount := 0 }
      [Tok.frag doc] := by
    refine ⟨?_, ?_, ?_, ?_, ?_, ?_, ?_⟩
    · show doc = render [Tok.frag doc]
      rw [show render [Tok.frag doc] = doc ++ render [] from rfl,
        show render ([] : List Tok) = [] from rfl, List.append_nil]
    · rw [show restore [Tok.frag doc] = doc ++ restore [] from rfl,
        show restore ([] : List Tok) = [] from rfl, List.append_nil]
    · exact ⟨trivial, trivial⟩
    · intro s hs c hc
      rcases List.mem_cons.mp hs with h' | h'
      · cases h'; exact hc
      · cases h'
    · intro q u hq
      rcases List.mem_cons.mp hq with h' | h' <;> cases h'
    · intro kv hkv; cases hkv
    · exact List.nodup_nil
  obtain ⟨toks, hinv⟩ := foldl_applyRule_MaskInv doc rules hpf hne hdol htgt hpair
    (List.insertionSort (fun a b => b.target.length ≤ a.target.length) rules)
    (fun r hr => hperm.mem_iff.mp hr)
    { text := doc, map := [], totalCount := 0 } [Tok.frag doc] hinv0
  have hcd : computedData doc rules []
      = (List.insertionSort (fun a b => b.target.length ≤ a.target.length) rules).foldl
          applyRule { text := doc, map := [], totalCount := 0 } := by
    unfold computedData
    rw [List.foldl_nil]
  rw [hcd]
  obtain ⟨htext, hrest, hsep, hfrag, hblock, hmap, hnodup⟩ := hinv
  set st := (List.insertionSort (fun a b => b.target.length ≤ a.target.length) rules).foldl
    applyRule { text := doc, map := [], totalCount := 0 } with hst
  unfold unmaskText
  by_cases hz : st.text = []
  · rw [if_pos hz]
    have hnoph : ∀ q u, Tok.ph q u ∉ toks := by
      intro q u hq
      have hqinf : q <:+: render toks := ph_infix_render toks hq
      rw [← htext, hz] at hqinf
      obtain ⟨r', hr', hq', _⟩ := hmap (q, u) (hblock q u hq)
      simp only at hq'
      exact (by rw [hq']; exact hne r' hr' : q ≠ []) (List.infix_nil.mp hqinf)
    have : render toks = restore toks := render_eq_restore_of_no_ph toks hnoph
    rw [← hrest, ← this, ← htext, hz]
  · rw [if_neg hz]
    rw [htext]
    have hsortperm := List.perm_insertionSort
      (fun a b : Str => b.length ≤ a.length) (mapKeys st.map)
    rw [unmask_foldl_restore doc rules st.map hne hdoc htgt hpair hmap hnodup
      (List.insertionSort (fun a b => b.length ≤ a.length) (mapKeys st.map))
      (fun k hk => hsortperm.mem_iff.mp hk) toks
      (fun s hs c hc => Or.inl (hfrag s hs c hc))
      (fun q u hq => ⟨hsortperm.mem_iff.mpr
          (List.mem_map.mpr ⟨(q, u), hblock q u hq, rfl⟩),
        hblock q u hq⟩)]
    exact hrest

/-- Claim C1, witness for the amended round trip at a concrete instance:
two rules with fresh single-letter placeholders on `"hello world"`. -/
theorem masking_unmask_roundTrip_witness :
    ((∀ r ∈ [(⟨"1".data, "hello".data, "A".data⟩ : SensitiveWord),
              ⟨"2".data, "world".data, "B".data⟩], parenFree r.target)
      ∧ (∀ r ∈ [(⟨"1".data, "hello".data, "A".data⟩ : SensitiveWord),
              ⟨"2".data, "world".data, "B".data⟩], r.placeholder ≠ []))
    ∧ unmaskText (computedData "hello world".data
        [⟨"1".data, "hello".data, "A".data⟩, ⟨"2".data, "world".data, "B".data⟩] []).map
        (computedData "hello world".data
          [⟨"1".data, "hello".data, "A".data⟩, ⟨"2".data, "world".data, "B".data⟩] []).text
      = "hello world".data :=
  ⟨⟨by simp only [parenFree]; decide, by decide⟩,
    masking_unmask_roundTrip "hello world".data
      [⟨"1".data, "hello".data, "A".data⟩, ⟨"2".data, "world".data, "B".data⟩]
      (by simp only [parenFree]; decide) (by decide) (by decide) (by decide)
      (by decide) (by decide)⟩
